import Mathlib

/-!
# RingBuf: a fixed-capacity circular byte buffer

Shallow embedding of `RingBuf.c` / `RingBuf.h`.

* A `uint32_t` is a natural number below `2 ^ 32`; every addition and
  subtraction the C code performs on such values is reduced modulo `2 ^ 32`
  (`u32add`, `u32sub`).
* A pointer to bytes is `Option Mem`: `none` is `NULL`, `some m` is a region
  whose cell at offset `i` from the pointer is `m i`.
* A pointer to the handle is `Option sRingBuf_t`; every function returns the
  status together with the contents of each object it may have written.
-/

namespace RingBuf

/-- Values of the C type `uint8_t`. -/
abbrev uint8_t := Fin 256

/-- Byte region behind a pointer, indexed by the offset from the pointer. -/
abbrev Mem := Nat → uint8_t

/-- Addition of two `uint32_t` values. -/
def u32add (a b : Nat) : Nat := (a + b) % 4294967296

/-- Subtraction of two `uint32_t` values (both below `2 ^ 32`). -/
def u32sub (a b : Nat) : Nat := (a + 4294967296 - b) % 4294967296

/-- Status codes of `RingBuf.h`, in declaration order. -/
inductive eRingBufState_t
  | RINGBUF_OK
  | RINGBUF_ERROR
  | RINGBUF_EMPTY
  | RINGBUF_NOTEMPTY
  | RINGBUF_FULL
  | RINGBUF_HALFULL
  deriving DecidableEq

open eRingBufState_t

/-- Numeric value of each enumerator (`RINGBUF_OK = 0`, then counting up). -/
def eRingBufState_t.toNat : eRingBufState_t → Nat
  | RINGBUF_OK => 0
  | RINGBUF_ERROR => 1
  | RINGBUF_EMPTY => 2
  | RINGBUF_NOTEMPTY => 3
  | RINGBUF_FULL => 4
  | RINGBUF_HALFULL => 5

/-- Truth value of a status used as the condition of a C `if`: non-zero. -/
def eRingBufState_t.isTrue (st : eRingBufState_t) : Bool := st.toNat != 0

/-- The handle `sRingBuf_t`. The field `pBuf` holds the bytes of the storage
the pointer refers to. -/
structure sRingBuf_t where
  pBuf : Mem
  bufsize : Nat
  wIndex : Nat
  rIndex : Nat

/-- Result of `memcpy(dst + d, src + s, n)` on the destination region; source
and destination are distinct regions. -/
def memcpy (dst : Mem) (d : Nat) (src : Mem) (s : Nat) (n : Nat) : Mem :=
  fun j => if d ≤ j ∧ j < d + n then src (s + (j - d)) else dst j

/-- Embedding of `RingBuf_Init`: status and the handle afterwards. -/
def RingBuf_Init (pRingBuf : Option sRingBuf_t) (pBuf : Option Mem) (bufsize : Nat) :
    eRingBufState_t × Option sRingBuf_t :=
  match pRingBuf, pBuf with
  | none, _ => (RINGBUF_ERROR, none)
  | some rb, none => (RINGBUF_ERROR, some rb)
  | some rb, some buf =>
    if bufsize = 0 then (RINGBUF_ERROR, some rb)
    else (RINGBUF_OK, some { pBuf := buf, bufsize := bufsize, wIndex := 0, rIndex := 0 })

/-- Embedding of `RingBuf_ReInit`: status and the handle afterwards. -/
def RingBuf_ReInit (pRingBuf : Option sRingBuf_t) : eRingBufState_t × Option sRingBuf_t :=
  match pRingBuf with
  | none => (RINGBUF_ERROR, none)
  | some rb => (RINGBUF_OK, some { rb with wIndex := 0, rIndex := 0 })

/-- Embedding of `RingBuf_isFull`. The C remainder is undefined for `bufsize = 0`, which
`RingBuf_Init` never stores. -/
def RingBuf_isFull (pRingBuf : Option sRingBuf_t) : eRingBufState_t :=
  match pRingBuf with
  | none => RINGBUF_ERROR
  | some rb =>
    if u32add rb.wIndex 1 % rb.bufsize = rb.rIndex then RINGBUF_FULL else RINGBUF_OK

/-- Embedding of `RingBuf_isEmpty`. -/
def RingBuf_isEmpty (pRingBuf : Option sRingBuf_t) : eRingBufState_t :=
  match pRingBuf with
  | none => RINGBUF_ERROR
  | some rb => if rb.wIndex = rb.rIndex then RINGBUF_EMPTY else RINGBUF_NOTEMPTY

/-- Embedding of `RingBuf_WriteOneByte`: status and the handle afterwards. -/
def RingBuf_WriteOneByte (pRingBuf : Option sRingBuf_t) (data : uint8_t) :
    eRingBufState_t × Option sRingBuf_t :=
  match pRingBuf with
  | none => (RINGBUF_ERROR, none)
  | some rb =>
    if (RingBuf_isFull (some rb)).isTrue then (RINGBUF_FULL, some rb)
    else
      (RINGBUF_OK,
        some { rb with
          pBuf := Function.update rb.pBuf rb.wIndex data
          wIndex := u32add rb.wIndex 1 % rb.bufsize })

/-- Embedding of `RingBuf_ReadOneByte`: status, the handle afterwards and the byte behind
the output pointer afterwards. -/
def RingBuf_ReadOneByte (pRingBuf : Option sRingBuf_t) (pBuf : Option uint8_t) :
    eRingBufState_t × Option sRingBuf_t × Option uint8_t :=
  match pRingBuf, pBuf with
  | none, out => (RINGBUF_ERROR, none, out)
  | some rb, none => (RINGBUF_ERROR, some rb, none)
  | some rb, some old =>
    if (RingBuf_isEmpty (some rb)).isTrue then (RINGBUF_EMPTY, some rb, some old)
    else
      (RINGBUF_OK,
        some { rb with rIndex := u32add rb.rIndex 1 % rb.bufsize },
        some (rb.pBuf rb.rIndex))

/-- Embedding of `RingBuf_Write`: status and the handle afterwards. -/
def RingBuf_Write (pRingBuf : Option sRingBuf_t) (wBuf : Option Mem) (len : Nat) :
    eRingBufState_t × Option sRingBuf_t :=
  match pRingBuf, wBuf with
  | none, _ => (RINGBUF_ERROR, none)
  | some rb, none => (RINGBUF_ERROR, some rb)
  | some rb, some src =>
    if len = 0 then (RINGBUF_ERROR, some rb)
    else
      let wIndex := rb.wIndex
      let rIndex := rb.rIndex
      let bufsize := rb.bufsize
      let free_space :=
        if wIndex ≥ rIndex then u32sub (u32add (u32sub bufsize wIndex) rIndex) 1
        else u32sub (u32sub rIndex wIndex) 1
      if len > free_space then (RINGBUF_FULL, some rb)
      else
        let first_chunk := u32sub bufsize wIndex
        let stored :=
          if first_chunk ≥ len then memcpy rb.pBuf wIndex src 0 len
          else
            memcpy (memcpy rb.pBuf wIndex src 0 first_chunk) 0 src first_chunk
              (u32sub len first_chunk)
        let wSum := u32add wIndex len
        let wNew := if wSum ≥ bufsize then u32sub wSum bufsize else wSum
        (RINGBUF_OK, some { rb with pBuf := stored, wIndex := wNew })

/-- Embedding of `RingBuf_Read`: status, the handle afterwards and the destination region
afterwards. The value `avail` the C code computes is never used. -/
def RingBuf_Read (pRingBuf : Option sRingBuf_t) (rBuf : Option Mem) (len : Nat) :
    eRingBufState_t × Option sRingBuf_t × Option Mem :=
  match pRingBuf, rBuf with
  | none, out => (RINGBUF_ERROR, none, out)
  | some rb, none => (RINGBUF_ERROR, some rb, none)
  | some rb, some dst =>
    if len = 0 then (RINGBUF_ERROR, some rb, some dst)
    else
      let rIndex := rb.rIndex
      let bufsize := rb.bufsize
      let first_chunk := u32sub bufsize rIndex
      let out :=
        if first_chunk ≥ len then memcpy dst 0 rb.pBuf rIndex len
        else
          memcpy (memcpy dst 0 rb.pBuf rIndex first_chunk) first_chunk rb.pBuf 0
            (u32sub len first_chunk)
      let new_rIndex := u32add rIndex len % bufsize
      (RINGBUF_OK, some { rb with rIndex := new_rIndex }, some out)

/-- Embedding of `RingBuf_GetDataLen`. -/
def RingBuf_GetDataLen (pRingBuf : Option sRingBuf_t) : Nat :=
  match pRingBuf with
  | none => 0
  | some rb =>
    if rb.wIndex ≥ rb.rIndex then u32sub rb.wIndex rb.rIndex
    else u32add (u32sub rb.bufsize rb.rIndex) rb.wIndex

/-! ## Byte sequences behind pointers -/

/-- Region that starts with the bytes of `l` (zero beyond them). -/
def Mem.ofList (l : List uint8_t) : Mem := fun i => l.getD i 0

/-- The first `n` bytes of a region. -/
def Mem.take (m : Mem) (n : Nat) : List uint8_t := (List.range n).map m

/-- The `d` bytes the buffer holds, oldest first: `storage[(rIndex + i) mod bufsize]`. -/
def contents (rb : sRingBuf_t) (d : Nat) : List uint8_t :=
  (List.range d).map fun i => rb.pBuf ((rb.rIndex + i) % rb.bufsize)

/-! ## Concrete states -/

/-- Region of zero bytes. -/
def Mem.zero : Mem := fun _ => 0

/-- Handle before `RingBuf_Init`. -/
def rawHandle : sRingBuf_t := ⟨Mem.zero, 0, 0, 0⟩

/-- Empty buffer of capacity 4 with both cursors at index 2. -/
def emptyAt2 : sRingBuf_t := ⟨Mem.zero, 4, 2, 2⟩

/-- Capacity 8: constructed, six bytes `1 .. 6` written, four bytes read. -/
def wrapState : sRingBuf_t :=
  ((RingBuf_Read
      (RingBuf_Write (RingBuf_Init (some rawHandle) (some Mem.zero) 8).2
        (some (Mem.ofList [1, 2, 3, 4, 5, 6])) 6).2
      (some Mem.zero) 4).2.1).getD rawHandle

/-- Capacity 4 holding the two bytes `1, 2`. -/
def twoOfFour : sRingBuf_t := ⟨Mem.ofList [1, 2, 0, 0], 4, 2, 0⟩

/-- Capacity 4: constructed, then the byte `7` written with `RingBuf_WriteOneByte`. -/
def oneOfFour : sRingBuf_t :=
  ((RingBuf_WriteOneByte (RingBuf_Init (some rawHandle) (some Mem.zero) 4).2 7).2).getD rawHandle

/-- Capacity 4 holding the three bytes `1, 2, 3`: full. -/
def fullOfFour : sRingBuf_t := ⟨Mem.ofList [1, 2, 3, 0], 4, 3, 0⟩

/-- Consecutive calls of `RingBuf_WriteOneByte`, one per byte of the list:
the statuses in call order and the handle after the last call. -/
def writeBytes (h : Option sRingBuf_t) : List uint8_t → List eRingBufState_t × Option sRingBuf_t
  | [] => ([], h)
  | b :: bs =>
    ((RingBuf_WriteOneByte h b).1 :: (writeBytes (RingBuf_WriteOneByte h b).2 bs).1,
      (writeBytes (RingBuf_WriteOneByte h b).2 bs).2)

/-- One call of the read/write interface on a present handle, with present
source and destination regions. -/
inductive Call
  | writeOneByte (data : uint8_t)
  | readOneByte
  | write (wBuf : Mem) (len : Nat)
  | read (len : Nat)

/-- Status and handle after one call. -/
def Call.run (h : Option sRingBuf_t) : Call → eRingBufState_t × Option sRingBuf_t
  | .writeOneByte data => RingBuf_WriteOneByte h data
  | .readOneByte => ((RingBuf_ReadOneByte h (some 0)).1, (RingBuf_ReadOneByte h (some 0)).2.1)
  | .write wBuf len => RingBuf_Write h (some wBuf) len
  | .read len => ((RingBuf_Read h (some Mem.zero) len).1, (RingBuf_Read h (some Mem.zero) len).2.1)

/-- The `uint32_t` length argument of a call (1 for the single-byte calls). -/
def Call.len : Call → Nat
  | .writeOneByte _ => 1
  | .readOneByte => 1
  | .write _ len => len
  | .read len => len

/-- Number of bytes a call writes when it succeeds. -/
def Call.written : Call → Nat
  | .writeOneByte _ => 1
  | .write _ len => len
  | _ => 0

/-- Number of bytes a call reads when it succeeds. -/
def Call.consumed : Call → Nat
  | .readOneByte => 1
  | .read len => len
  | _ => 0

/-- A sequence of calls: the statuses in call order and the handle after the
last call. -/
def runCalls (h : Option sRingBuf_t) : List Call → List eRingBufState_t × Option sRingBuf_t
  | [] => ([], h)
  | x :: xs => ((x.run h).1 :: (runCalls (x.run h).2 xs).1, (runCalls (x.run h).2 xs).2)

/-- Total number of bytes written by a sequence of calls. -/
def bytesWritten (l : List Call) : Nat := (l.map Call.written).sum

/-- Total number of bytes read by a sequence of calls. -/
def bytesRead (l : List Call) : Nat := (l.map Call.consumed).sum

/-- Capacity `2 ^ 31 + 1`: constructed, `2 ^ 31` bytes written, `2 ^ 31` bytes
read; both cursors are at `2 ^ 31` and the buffer is empty. -/
def bigState : sRingBuf_t :=
  ((RingBuf_Read
      (RingBuf_Write (RingBuf_Init (some rawHandle) (some Mem.zero) 2147483649).2
        (some Mem.zero) 2147483648).2
      (some Mem.zero) 2147483648).2.1).getD rawHandle

/-- Calls on a buffer of capacity `2 ^ 31 + 1`: write `2 ^ 31` bytes, read
them, write `2 ^ 31` bytes again. -/
def bigCalls : List Call :=
  [.write Mem.zero 2147483648, .read 2147483648, .write Mem.zero 2147483648]

/-- Calls on a buffer of capacity 4: five bytes written, three read. -/
def smallCalls : List Call :=
  [.write (Mem.ofList [1, 2, 3]) 3, .read 2, .writeOneByte 4, .read 1, .writeOneByte 5]

/-- Both cursors of a present handle lie inside a storage of capacity `c`. -/
def cursorsInRange (c : Nat) : Option sRingBuf_t → Bool
  | none => false
  | some s => decide (s.bufsize = c) && decide (s.wIndex < c) && decide (s.rIndex < c)

/-- Capacity 4 after `RingBuf_Init`, `RingBuf_Write([1,2,3], 3)` and a rejected
`RingBuf_WriteOneByte(4)`. -/
def scenarioFull : Option sRingBuf_t :=
  (RingBuf_WriteOneByte
    (RingBuf_Write (RingBuf_Init (some rawHandle) (some Mem.zero) 4).2
      (some (Mem.ofList [1, 2, 3])) 3).2 4).2

/-- Capacity 1 directly after `RingBuf_Init`. -/
def freshOfOne : Option sRingBuf_t := (RingBuf_Init (some rawHandle) (some Mem.zero) 1).2

/-- Storage ranges `(start, length)` that `RingBuf_Write` hands to `memcpy`
as destinations once the free-space check has passed, in call order. -/
def RingBuf_Write_chunks (rb : sRingBuf_t) (len : Nat) : List (Nat × Nat) :=
  let first_chunk := u32sub rb.bufsize rb.wIndex
  if first_chunk ≥ len then [(rb.wIndex, len)]
  else [(rb.wIndex, first_chunk), (0, u32sub len first_chunk)]

/-- Storage ranges `(start, length)` that `RingBuf_Read` hands to `memcpy`
as sources once the argument check has passed, in call order. -/
def RingBuf_Read_chunks (rb : sRingBuf_t) (len : Nat) : List (Nat × Nat) :=
  let first_chunk := u32sub rb.bufsize rb.rIndex
  if first_chunk ≥ len then [(rb.rIndex, len)]
  else [(rb.rIndex, first_chunk), (0, u32sub len first_chunk)]

/-- Index `j` lies in one of the ranges `[start, start + length)`. -/
def touched (chunks : List (Nat × Nat)) (j : Nat) : Bool :=
  chunks.any fun p => decide (p.1 ≤ j) && decide (j < p.1 + p.2)

/-! ## Arithmetic of the cursors -/

theorem u32add_eq {a b : Nat} (h : a + b < 4294967296) : u32add a b = a + b := by
  unfold u32add; omega

theorem u32sub_eq {a b : Nat} (h : b ≤ a) (ha : a < 4294967296) : u32sub a b = a - b := by
  unfold u32sub; omega

theorem mod_wrap {x i c : Nat} (hx : x + i < c + c) :
    (x + i) % c = if x + i < c then x + i else x + i - c := by
  split
  · exact Nat.mod_eq_of_lt (by assumption)
  · rw [Nat.mod_eq_sub_mod (by omega)]
    exact Nat.mod_eq_of_lt (by omega)

/-- The two branches of `RingBuf_GetDataLen` without the 32-bit reduction. -/
theorem dataLen_eq (s : sRingBuf_t) (h32 : s.bufsize < 4294967296)
    (hw : s.wIndex < s.bufsize) (hr : s.rIndex < s.bufsize) :
    RingBuf_GetDataLen (some s) =
      if s.rIndex ≤ s.wIndex then s.wIndex - s.rIndex
      else s.bufsize - s.rIndex + s.wIndex := by
  simp only [RingBuf_GetDataLen, u32add, u32sub, ge_iff_le]
  split <;> omega

/-- The free space `RingBuf_Write` computes is `bufsize - 1 - DataLen`. -/
theorem free_space_eq (s : sRingBuf_t) (h32 : s.bufsize < 4294967296)
    (hw : s.wIndex < s.bufsize) (hr : s.rIndex < s.bufsize) :
    (if s.wIndex ≥ s.rIndex then u32sub (u32add (u32sub s.bufsize s.wIndex) s.rIndex) 1
      else u32sub (u32sub s.rIndex s.wIndex) 1) =
      s.bufsize - 1 - RingBuf_GetDataLen (some s) := by
  rw [dataLen_eq s h32 hw hr]
  simp only [u32add, u32sub, ge_iff_le]
  split <;> omega

/-- What an accepted bulk write does: the cursor and every cell of the
storage region afterwards. -/
theorem write_ok (s : sRingBuf_t) (src : Mem) (n : Nat) (h32 : s.bufsize < 4294967296)
    (hw : s.wIndex < s.bufsize) (hr : s.rIndex < s.bufsize) (hn : 1 ≤ n)
    (hfree : n ≤ s.bufsize - 1 - RingBuf_GetDataLen (some s)) :
    ∃ s1, RingBuf_Write (some s) (some src) n = (RINGBUF_OK, some s1) ∧
      s1.bufsize = s.bufsize ∧ s1.rIndex = s.rIndex ∧
      s1.wIndex =
        (if u32add s.wIndex n ≥ s.bufsize then u32sub (u32add s.wIndex n) s.bufsize
          else u32add s.wIndex n) ∧
      ∀ j, s1.pBuf j =
        if s.wIndex ≤ j ∧ j < s.wIndex + n ∧ j < s.bufsize then src (j - s.wIndex)
        else if j + s.bufsize < s.wIndex + n then src (j + s.bufsize - s.wIndex)
        else s.pBuf j := by
  have hfs := free_space_eq s h32 hw hr
  have hd := dataLen_eq s h32 hw hr
  have hfc : u32sub s.bufsize s.wIndex = s.bufsize - s.wIndex := u32sub_eq (by omega) h32
  simp only [RingBuf_Write]
  rw [if_neg (by omega), hfs, if_neg (by omega), hfc]
  refine ⟨_, rfl, rfl, rfl, rfl, ?_⟩
  intro j
  by_cases hc : s.bufsize - s.wIndex ≥ n
  · simp only [hc, if_true, memcpy]
    split_ifs <;> first | rfl | omega | (congr 1; omega)
  · have hl : u32sub n (s.bufsize - s.wIndex) = n - (s.bufsize - s.wIndex) :=
      u32sub_eq (by omega) (by split at hd <;> omega)
    simp only [hc, if_false, memcpy, hl]
    split_ifs <;> first | rfl | omega | (congr 1; omega)

/-- What a bulk read of at most `bufsize` bytes does: the cursor and every
cell of the destination region afterwards. -/
theorem read_ok (s : sRingBuf_t) (dst : Mem) (n : Nat) (h32 : s.bufsize < 4294967296)
    (hr : s.rIndex < s.bufsize) (hn : 1 ≤ n) (hle : n ≤ s.bufsize) :
    ∃ out, RingBuf_Read (some s) (some dst) n =
        (RINGBUF_OK, some { s with rIndex := u32add s.rIndex n % s.bufsize }, some out) ∧
      ∀ i, out i =
        if i < n then
          s.pBuf (if s.rIndex + i < s.bufsize then s.rIndex + i else s.rIndex + i - s.bufsize)
        else dst i := by
  have hfc : u32sub s.bufsize s.rIndex = s.bufsize - s.rIndex := u32sub_eq (by omega) h32
  simp only [RingBuf_Read]
  rw [if_neg (by omega), hfc]
  refine ⟨_, rfl, ?_⟩
  intro i
  by_cases hc : s.bufsize - s.rIndex ≥ n
  · simp only [hc, if_true, memcpy]
    split_ifs <;> first | rfl | omega
  · have hl : u32sub n (s.bufsize - s.rIndex) = n - (s.bufsize - s.rIndex) :=
      u32sub_eq (by omega) (by omega)
    simp only [hc, if_false, memcpy, hl]
    split_ifs <;> first | rfl | omega | (congr 1; omega)

/-- Status of a bulk write with a present source and a non-zero length. -/
theorem write_status (s : sRingBuf_t) (src : Mem) (n : Nat) (h32 : s.bufsize < 4294967296)
    (hw : s.wIndex < s.bufsize) (hr : s.rIndex < s.bufsize) (hn : 1 ≤ n) :
    RingBuf_Write (some s) (some src) n =
      if n > s.bufsize - 1 - RingBuf_GetDataLen (some s) then (RINGBUF_FULL, some s)
      else (RINGBUF_OK, (RingBuf_Write (some s) (some src) n).2) := by
  have hfs := free_space_eq s h32 hw hr
  by_cases hf : n > s.bufsize - 1 - RingBuf_GetDataLen (some s)
  · rw [if_pos hf]
    simp only [RingBuf_Write]
    rw [if_neg (by omega), hfs, if_pos hf]
  · rw [if_neg hf]
    obtain ⟨s1, h, -⟩ := write_ok s src n h32 hw hr hn (by omega)
    rw [h]

/-- An accepted bulk write followed by a bulk read of everything held:
the bytes that were held come out first, then the bytes just written. -/
theorem write_then_read (s : sRingBuf_t) (src dst : Mem) (n : Nat)
    (h32 : s.bufsize < 4294967296) (hw : s.wIndex < s.bufsize) (hr : s.rIndex < s.bufsize)
    (hn : 1 ≤ n) (hfree : n ≤ s.bufsize - 1 - RingBuf_GetDataLen (some s)) :
    ∃ s1 s2 out, RingBuf_Write (some s) (some src) n = (RINGBUF_OK, some s1) ∧
      RingBuf_Read (some s1) (some dst) (RingBuf_GetDataLen (some s) + n) =
        (RINGBUF_OK, some s2, some out) ∧
      ∀ i, i < RingBuf_GetDataLen (some s) + n →
        out i =
          if i < RingBuf_GetDataLen (some s) then s.pBuf ((s.rIndex + i) % s.bufsize)
          else src (i - RingBuf_GetDataLen (some s)) := by
  obtain ⟨s1, hW, hb, hr1, -, hp⟩ := write_ok s src n h32 hw hr hn hfree
  have hd := dataLen_eq s h32 hw hr
  generalize RingBuf_GetDataLen (some s) = d at hd hfree ⊢
  obtain ⟨out, hR, ho⟩ := read_ok s1 dst (d + n) (by omega) (by omega) (by omega) (by omega)
  refine ⟨s1, _, out, hW, hR, ?_⟩
  intro i hi
  rw [ho i, if_pos hi, hp, hb, hr1]
  have hm : (s.rIndex + i) % s.bufsize =
      if s.rIndex + i < s.bufsize then s.rIndex + i else s.rIndex + i - s.bufsize :=
    mod_wrap (by omega)
  rw [hm]
  split at hd <;> split_ifs <;> first | rfl | omega | (congr 1; omega)

theorem take_length (m : Mem) (n : Nat) : (Mem.take m n).length = n := by
  simp [Mem.take]

theorem take_getElem (m : Mem) (n i : Nat) (h : i < (Mem.take m n).length) :
    (Mem.take m n)[i] = m i := by
  simp [Mem.take]

/-- A region starts with the list `S` iff its cells are the entries of `S`. -/
theorem take_eq_iff (m : Mem) (S : List uint8_t) :
    Mem.take m S.length = S ↔ ∀ i (h : i < S.length), m i = S[i] := by
  constructor
  · intro h i hi
    have h2 : i < (Mem.take m S.length).length := by rw [take_length]; exact hi
    have := take_getElem m S.length i h2
    rw [← this]
    congr 1
  · intro h
    apply List.ext_getElem (take_length _ _)
    intro i h1 h2
    rw [take_getElem, h i h2]

/-! ## The claims -/

/-- C1: bulk round trip. For every capacity of at least 2, every empty state
(read cursor equal to write cursor, inside the storage) and every byte
sequence `S` of 1 to `bufsize - 1` bytes, `RingBuf_Write` of `S` returns
`RINGBUF_OK`, and a following `RingBuf_Read` of as many bytes returns
`RINGBUF_OK` and delivers exactly `S`, in order. -/
theorem bulk_round_trip (s : sRingBuf_t) (S : List uint8_t) (src dst : Mem)
    (hc : 2 ≤ s.bufsize) (h32 : s.bufsize < 4294967296)
    (hr : s.rIndex < s.bufsize) (he : s.rIndex = s.wIndex)
    (hS : Mem.take src S.length = S)
    (h1 : 1 ≤ S.length) (h2 : S.length ≤ s.bufsize - 1) :
    (RingBuf_Write (some s) (some src) S.length).1 = RINGBUF_OK ∧
    (RingBuf_Read (RingBuf_Write (some s) (some src) S.length).2 (some dst) S.length).1
      = RINGBUF_OK ∧
    ∃ out,
      (RingBuf_Read (RingBuf_Write (some s) (some src) S.length).2 (some dst) S.length).2.2
        = some out ∧
      Mem.take out S.length = S := by
  have hd : RingBuf_GetDataLen (some s) = 0 := by
    rw [dataLen_eq s h32 (by omega) hr]; split <;> omega
  obtain ⟨s1, s2, out, hW, hR, ho⟩ :=
    write_then_read s src dst S.length h32 (by omega) hr h1 (by omega)
  rw [hd, Nat.zero_add] at hR
  rw [hW]
  simp only [hR, true_and]
  refine ⟨out, rfl, ?_⟩
  rw [take_eq_iff]
  intro i hi
  rw [ho i (by omega), hd, if_neg (by omega), Nat.sub_zero]
  exact (take_eq_iff src S).1 hS i hi


theorem bulk_round_trip_witness :
    (2 ≤ emptyAt2.bufsize ∧ emptyAt2.bufsize < 4294967296 ∧
      emptyAt2.rIndex < emptyAt2.bufsize ∧ emptyAt2.rIndex = emptyAt2.wIndex) ∧
    ((RingBuf_Write (some emptyAt2) (some (Mem.ofList [1, 2, 3])) 3).1 = RINGBUF_OK ∧
    (RingBuf_Read (RingBuf_Write (some emptyAt2) (some (Mem.ofList [1, 2, 3])) 3).2
      (some Mem.zero) 3).1 = RINGBUF_OK ∧
    ∃ out,
      (RingBuf_Read (RingBuf_Write (some emptyAt2) (some (Mem.ofList [1, 2, 3])) 3).2
        (some Mem.zero) 3).2.2 = some out ∧
      Mem.take out 3 = [1, 2, 3]) :=
  ⟨by decide,
    bulk_round_trip emptyAt2 [1, 2, 3] (Mem.ofList [1, 2, 3]) Mem.zero
      (by decide) (by decide) (by decide) (by decide) (by decide) (by decide) (by decide)⟩

/-- C2: FIFO order across the wraparound boundary. For every capacity (of at
least 2 in particular) and every state with both cursors inside the storage that holds `d`
unread bytes `contents s d`, if `RingBuf_Write` of `S` returns `RINGBUF_OK`
then a following `RingBuf_Read` of `d + |S|` bytes returns `RINGBUF_OK` and
delivers the held bytes followed by `S`, also when the written run is split
between the end of the storage and index 0. -/
theorem fifo_across_wraparound (s : sRingBuf_t) (S : List uint8_t) (src dst : Mem)
    (h32 : s.bufsize < 4294967296)
    (hw : s.wIndex < s.bufsize) (hr : s.rIndex < s.bufsize)
    (hS : Mem.take src S.length = S)
    (hok : (RingBuf_Write (some s) (some src) S.length).1 = RINGBUF_OK) :
    (RingBuf_Read (RingBuf_Write (some s) (some src) S.length).2 (some dst)
      (RingBuf_GetDataLen (some s) + S.length)).1 = RINGBUF_OK ∧
    ∃ out,
      (RingBuf_Read (RingBuf_Write (some s) (some src) S.length).2 (some dst)
        (RingBuf_GetDataLen (some s) + S.length)).2.2 = some out ∧
      Mem.take out (RingBuf_GetDataLen (some s) + S.length) =
        contents s (RingBuf_GetDataLen (some s)) ++ S := by
  have h1 : 1 ≤ S.length := by
    rcases Nat.eq_zero_or_pos S.length with h0 | h0
    · rw [h0] at hok; simp [RingBuf_Write] at hok
    · exact h0
  have hst := write_status s src S.length h32 hw hr h1
  have hfree : S.length ≤ s.bufsize - 1 - RingBuf_GetDataLen (some s) := by
    by_contra hf
    rw [if_pos (by omega)] at hst
    rw [hst] at hok
    cases hok
  obtain ⟨s1, s2, out, hW, hR, ho⟩ := write_then_read s src dst S.length h32 hw hr h1 hfree
  rw [hW]
  simp only [hR, true_and]
  refine ⟨out, rfl, ?_⟩
  apply List.ext_getElem
  · simp [Mem.take, contents]
  · intro i hi1 hi2
    rw [take_length] at hi1
    rw [take_getElem, ho i hi1]
    by_cases hi : i < RingBuf_GetDataLen (some s)
    · rw [if_pos hi, List.getElem_append_left (by simp [contents]; exact hi)]
      simp [contents]
    · rw [if_neg hi, List.getElem_append_right (by simp [contents]; omega)]
      simp only [contents, List.length_map, List.length_range]
      exact (take_eq_iff src S).1 hS _ _

theorem fifo_across_wraparound_witness :
    (wrapState.bufsize = 8 ∧ wrapState.wIndex = 6 ∧ wrapState.rIndex = 4 ∧
      RingBuf_GetDataLen (some wrapState) = 2 ∧ contents wrapState 2 = [5, 6] ∧
      (RingBuf_Write (some wrapState) (some (Mem.ofList [7, 8, 9, 10, 11]))
        [7, 8, 9, 10, 11].length).1 = RINGBUF_OK) ∧
    ((RingBuf_Read
        (RingBuf_Write (some wrapState) (some (Mem.ofList [7, 8, 9, 10, 11]))
          [7, 8, 9, 10, 11].length).2
        (some Mem.zero)
        (RingBuf_GetDataLen (some wrapState) + [7, 8, 9, 10, 11].length)).1 = RINGBUF_OK ∧
    ∃ out,
      (RingBuf_Read
        (RingBuf_Write (some wrapState) (some (Mem.ofList [7, 8, 9, 10, 11]))
          [7, 8, 9, 10, 11].length).2
        (some Mem.zero)
        (RingBuf_GetDataLen (some wrapState) + [7, 8, 9, 10, 11].length)).2.2 = some out ∧
      Mem.take out (RingBuf_GetDataLen (some wrapState) + [7, 8, 9, 10, 11].length) =
        contents wrapState (RingBuf_GetDataLen (some wrapState)) ++ [7, 8, 9, 10, 11]) :=
  ⟨by decide,
    fifo_across_wraparound wrapState [7, 8, 9, 10, 11] (Mem.ofList [7, 8, 9, 10, 11]) Mem.zero
      (by decide) (by decide) (by decide) (by decide) (by decide)⟩

/-- C3: bulk write is all-or-nothing. For every state with both cursors
inside the storage, a present source and a length `n` of at least 1,
`RingBuf_Write` returns `RINGBUF_FULL` iff `n > bufsize - 1 - DataLen`; and
when it returns `RINGBUF_FULL` the handle (storage bytes, write cursor, read
cursor) is unchanged, so `RingBuf_GetDataLen` returns the same value. -/
theorem write_all_or_nothing (s : sRingBuf_t) (src : Mem) (n : Nat)
    (h32 : s.bufsize < 4294967296) (hw : s.wIndex < s.bufsize) (hr : s.rIndex < s.bufsize)
    (hn : 1 ≤ n) :
    ((RingBuf_Write (some s) (some src) n).1 = RINGBUF_FULL ↔
      n > s.bufsize - 1 - RingBuf_GetDataLen (some s)) ∧
    ((RingBuf_Write (some s) (some src) n).1 = RINGBUF_FULL →
      (RingBuf_Write (some s) (some src) n).2 = some s ∧
      RingBuf_GetDataLen (RingBuf_Write (some s) (some src) n).2 =
        RingBuf_GetDataLen (some s)) := by
  have hst := write_status s src n h32 hw hr hn
  by_cases hf : n > s.bufsize - 1 - RingBuf_GetDataLen (some s)
  · rw [if_pos hf] at hst
    rw [hst]
    exact ⟨⟨fun _ => hf, fun _ => rfl⟩, fun _ => ⟨rfl, rfl⟩⟩
  · rw [if_neg hf] at hst
    have h1 : (RingBuf_Write (some s) (some src) n).1 = RINGBUF_OK := by rw [hst]
    constructor
    · constructor
      · intro h; rw [h1] at h; cases h
      · intro h; exact absurd h hf
    · intro h; rw [h1] at h; cases h

theorem write_all_or_nothing_witness :
    (twoOfFour.bufsize < 4294967296 ∧ twoOfFour.wIndex < twoOfFour.bufsize ∧
      twoOfFour.rIndex < twoOfFour.bufsize ∧
      (RingBuf_Write (some twoOfFour) (some (Mem.ofList [3, 4])) 2).1 = RINGBUF_FULL) ∧
    (((RingBuf_Write (some twoOfFour) (some (Mem.ofList [3, 4])) 2).1 = RINGBUF_FULL ↔
      2 > twoOfFour.bufsize - 1 - RingBuf_GetDataLen (some twoOfFour)) ∧
    ((RingBuf_Write (some twoOfFour) (some (Mem.ofList [3, 4])) 2).1 = RINGBUF_FULL →
      (RingBuf_Write (some twoOfFour) (some (Mem.ofList [3, 4])) 2).2 = some twoOfFour ∧
      RingBuf_GetDataLen (RingBuf_Write (some twoOfFour) (some (Mem.ofList [3, 4])) 2).2 =
        RingBuf_GetDataLen (some twoOfFour))) :=
  ⟨by decide,
    write_all_or_nothing twoOfFour (Mem.ofList [3, 4]) 2
      (by decide) (by decide) (by decide) (by decide)⟩


/-- The test of `RingBuf_isFull` inside `RingBuf_WriteOneByte`: the status is
non-zero exactly when the buffer is full. -/
theorem writeOneByte_eq (s : sRingBuf_t) (data : uint8_t) :
    RingBuf_WriteOneByte (some s) data =
      if u32add s.wIndex 1 % s.bufsize = s.rIndex then (RINGBUF_FULL, some s)
      else
        (RINGBUF_OK,
          some { s with
            pBuf := Function.update s.pBuf s.wIndex data
            wIndex := u32add s.wIndex 1 % s.bufsize }) := by
  simp only [RingBuf_WriteOneByte, RingBuf_isFull]
  split <;> simp [eRingBufState_t.isTrue, eRingBufState_t.toNat]

/-- C4: the read-one-byte contract fails on a buffer that is not empty. On
the buffer of capacity 4 that holds the single byte `7` (write cursor 1, read
cursor 0), `RingBuf_isEmpty` reports `RINGBUF_NOTEMPTY` and
`RingBuf_GetDataLen` returns 1, yet `RingBuf_ReadOneByte` returns
`RINGBUF_EMPTY` instead of `RINGBUF_OK`, delivers nothing (the output byte
keeps its old value `0`, not `7`) and leaves the read cursor at 0. -/
theorem readOneByte_nonempty_reports_empty :
    oneOfFour.bufsize = 4 ∧ oneOfFour.wIndex = 1 ∧ oneOfFour.rIndex = 0 ∧
    oneOfFour.pBuf oneOfFour.rIndex = 7 ∧
    RingBuf_isEmpty (some oneOfFour) = RINGBUF_NOTEMPTY ∧
    RingBuf_GetDataLen (some oneOfFour) = 1 ∧
    (RingBuf_ReadOneByte (some oneOfFour) (some 0)).1 = RINGBUF_EMPTY ∧
    (RingBuf_ReadOneByte (some oneOfFour) (some 0)).1 ≠ RINGBUF_OK ∧
    (RingBuf_ReadOneByte (some oneOfFour) (some 0)).2.2 = some 0 ∧
    (RingBuf_ReadOneByte (some oneOfFour) (some 0)).2.1.map (fun s => s.rIndex) = some 0 := by
  decide

/-- C5: the write-one-byte contract. For every state with both cursors inside
the storage: if the buffer is full (`(wIndex + 1) mod bufsize = rIndex`),
`RingBuf_WriteOneByte` returns `RINGBUF_FULL` and changes nothing; otherwise it
returns `RINGBUF_OK`, stores the value at `storage[wIndex]`, leaves every other
storage byte, the read cursor and the capacity unchanged, and sets the write
cursor to `(wIndex + 1) mod bufsize`. -/
theorem writeOneByte_contract (s : sRingBuf_t) (data : uint8_t)
    (h32 : s.bufsize < 4294967296) (hw : s.wIndex < s.bufsize) (_hr : s.rIndex < s.bufsize) :
    ((s.wIndex + 1) % s.bufsize = s.rIndex →
      RingBuf_WriteOneByte (some s) data = (RINGBUF_FULL, some s)) ∧
    ((s.wIndex + 1) % s.bufsize ≠ s.rIndex →
      (RingBuf_WriteOneByte (some s) data).1 = RINGBUF_OK ∧
      ∃ s1, (RingBuf_WriteOneByte (some s) data).2 = some s1 ∧
        s1.pBuf s.wIndex = data ∧ (∀ j, j ≠ s.wIndex → s1.pBuf j = s.pBuf j) ∧
        s1.rIndex = s.rIndex ∧ s1.bufsize = s.bufsize ∧
        s1.wIndex = (s.wIndex + 1) % s.bufsize) := by
  have ha : u32add s.wIndex 1 = s.wIndex + 1 := u32add_eq (by omega)
  constructor
  · intro hf
    rw [writeOneByte_eq, ha, if_pos hf]
  · intro hf
    rw [writeOneByte_eq, ha, if_neg hf]
    refine ⟨rfl, _, rfl, ?_, ?_, rfl, rfl, rfl⟩
    · simp [Function.update]
    · intro j hj
      simp [Function.update, hj]

theorem writeOneByte_contract_witness :
    (fullOfFour.bufsize < 4294967296 ∧ fullOfFour.wIndex < fullOfFour.bufsize ∧
      fullOfFour.rIndex < fullOfFour.bufsize ∧
      (fullOfFour.wIndex + 1) % fullOfFour.bufsize = fullOfFour.rIndex ∧
      (twoOfFour.wIndex + 1) % twoOfFour.bufsize ≠ twoOfFour.rIndex) ∧
    RingBuf_WriteOneByte (some fullOfFour) 9 = (RINGBUF_FULL, some fullOfFour) ∧
    ((RingBuf_WriteOneByte (some twoOfFour) 9).1 = RINGBUF_OK ∧
      ∃ s1, (RingBuf_WriteOneByte (some twoOfFour) 9).2 = some s1 ∧
        s1.pBuf twoOfFour.wIndex = 9 ∧ (∀ j, j ≠ twoOfFour.wIndex → s1.pBuf j = twoOfFour.pBuf j) ∧
        s1.rIndex = twoOfFour.rIndex ∧ s1.bufsize = twoOfFour.bufsize ∧
        s1.wIndex = (twoOfFour.wIndex + 1) % twoOfFour.bufsize) :=
  ⟨by decide,
    (writeOneByte_contract fullOfFour 9 (by decide) (by decide) (by decide)).1 (by decide),
    (writeOneByte_contract twoOfFour 9 (by decide) (by decide) (by decide)).2 (by decide)⟩


/-- One accepted `RingBuf_WriteOneByte` on a buffer whose read cursor is 0 and
whose write cursor is below `bufsize - 1`. -/
theorem writeOneByte_step (s : sRingBuf_t) (b : uint8_t) (h32 : s.bufsize < 4294967296)
    (hr : s.rIndex = 0) (hw : s.wIndex + 1 < s.bufsize) :
    RingBuf_WriteOneByte (some s) b =
      (RINGBUF_OK,
        some { s with
          pBuf := Function.update s.pBuf s.wIndex b
          wIndex := s.wIndex + 1 }) := by
  have ha : u32add s.wIndex 1 = s.wIndex + 1 := u32add_eq (by omega)
  rw [writeOneByte_eq, ha, Nat.mod_eq_of_lt hw, if_neg (by omega)]

/-- Writing single bytes into a buffer whose read cursor is 0, as long as the
write cursor stays below `bufsize - 1`: every call is accepted. -/
theorem writeBytes_run (bs : List uint8_t) :
    ∀ s : sRingBuf_t, s.bufsize < 4294967296 → s.rIndex = 0 →
      s.wIndex + bs.length < s.bufsize →
      (writeBytes (some s) bs).1 = List.replicate bs.length RINGBUF_OK ∧
      ∃ s1, (writeBytes (some s) bs).2 = some s1 ∧ s1.bufsize = s.bufsize ∧
        s1.rIndex = 0 ∧ s1.wIndex = s.wIndex + bs.length := by
  induction bs with
  | nil =>
    intro s _ hr _
    exact ⟨rfl, s, rfl, rfl, hr, rfl⟩
  | cons b bs ih =>
    intro s h32 hr hw
    simp only [List.length_cons] at hw
    have hstep := writeOneByte_step s b h32 hr (by omega)
    obtain ⟨hst, s1, hs1, hb, hr1, hw1⟩ :=
      ih { s with pBuf := Function.update s.pBuf s.wIndex b, wIndex := s.wIndex + 1 }
        h32 hr (by simp only; omega)
    simp only [writeBytes, hstep, List.length_cons, List.replicate_succ]
    refine ⟨by rw [hst], s1, hs1, hb, hr1, ?_⟩
    rw [hw1]; simp only; omega

/-- C6: filling the buffer. For every capacity `c` of at least 2, starting
from a freshly constructed buffer, each of the first `c - 1` calls of
`RingBuf_WriteOneByte` returns `RINGBUF_OK`; after them `RingBuf_isFull`
reports `RINGBUF_FULL`, and the `c`-th call of `RingBuf_WriteOneByte` returns
`RINGBUF_FULL`. -/
theorem fill_buffer (h0 : sRingBuf_t) (buf : Mem) (c : Nat) (bs : List uint8_t) (b : uint8_t)
    (hc : 2 ≤ c) (h32 : c < 4294967296) (hlen : bs.length = c - 1) :
    (RingBuf_Init (some h0) (some buf) c).1 = RINGBUF_OK ∧
    (writeBytes (RingBuf_Init (some h0) (some buf) c).2 bs).1
      = List.replicate (c - 1) RINGBUF_OK ∧
    RingBuf_isFull (writeBytes (RingBuf_Init (some h0) (some buf) c).2 bs).2 = RINGBUF_FULL ∧
    (RingBuf_WriteOneByte (writeBytes (RingBuf_Init (some h0) (some buf) c).2 bs).2 b).1
      = RINGBUF_FULL := by
  have hinit : RingBuf_Init (some h0) (some buf) c = (RINGBUF_OK, some ⟨buf, c, 0, 0⟩) := by
    simp only [RingBuf_Init]; rw [if_neg (by omega)]
  obtain ⟨hst, s1, hs1, hb, hr1, hw1⟩ :=
    writeBytes_run bs ⟨buf, c, 0, 0⟩ h32 rfl (by simp only; omega)
  simp only at hb hw1
  have ha : u32add s1.wIndex 1 = s1.wIndex + 1 := u32add_eq (by omega)
  have hfull : u32add s1.wIndex 1 % s1.bufsize = s1.rIndex := by
    rw [ha, hw1, hb, hr1, hlen]
    have : 0 + (c - 1) + 1 = c := by omega
    rw [this, Nat.mod_self]
  rw [hinit]
  refine ⟨rfl, ?_, ?_, ?_⟩
  · show (writeBytes (some ⟨buf, c, 0, 0⟩) bs).1 = _
    rw [hst, hlen]
  · show RingBuf_isFull (writeBytes (some ⟨buf, c, 0, 0⟩) bs).2 = _
    rw [hs1]; simp only [RingBuf_isFull]; rw [if_pos hfull]
  · show (RingBuf_WriteOneByte (writeBytes (some ⟨buf, c, 0, 0⟩) bs).2 b).1 = _
    rw [hs1, writeOneByte_eq, if_pos hfull]

theorem fill_buffer_witness :
    (2 ≤ 4 ∧ 4 < 4294967296 ∧ [1, 2, (3 : uint8_t)].length = 4 - 1) ∧
    ((RingBuf_Init (some rawHandle) (some Mem.zero) 4).1 = RINGBUF_OK ∧
    (writeBytes (RingBuf_Init (some rawHandle) (some Mem.zero) 4).2 [1, 2, 3]).1
      = List.replicate (4 - 1) RINGBUF_OK ∧
    RingBuf_isFull (writeBytes (RingBuf_Init (some rawHandle) (some Mem.zero) 4).2 [1, 2, 3]).2
      = RINGBUF_FULL ∧
    (RingBuf_WriteOneByte
      (writeBytes (RingBuf_Init (some rawHandle) (some Mem.zero) 4).2 [1, 2, 3]).2 4).1
      = RINGBUF_FULL) :=
  ⟨by decide,
    fill_buffer rawHandle Mem.zero 4 [1, 2, 3] 4 (by decide) (by decide) (by decide)⟩

/-- C8: the construct contract. `RingBuf_Init` returns `RINGBUF_ERROR` iff the
handle is absent, the storage is absent or `bufsize = 0`, and then the handle
is as it was; otherwise it returns `RINGBUF_OK` and the handle holds the given
storage, byte for byte, the given capacity, and both cursors at 0. -/
theorem init_contract (pRingBuf : Option sRingBuf_t) (pBuf : Option Mem) (bufsize : Nat) :
    ((RingBuf_Init pRingBuf pBuf bufsize).1 = RINGBUF_ERROR ↔
      (pRingBuf = none ∨ pBuf = none ∨ bufsize = 0)) ∧
    ((RingBuf_Init pRingBuf pBuf bufsize).1 = RINGBUF_ERROR →
      (RingBuf_Init pRingBuf pBuf bufsize).2 = pRingBuf) ∧
    (¬ (pRingBuf = none ∨ pBuf = none ∨ bufsize = 0) →
      (RingBuf_Init pRingBuf pBuf bufsize).1 = RINGBUF_OK ∧
      ∃ buf s1, pBuf = some buf ∧ (RingBuf_Init pRingBuf pBuf bufsize).2 = some s1 ∧
        s1.pBuf = buf ∧ s1.bufsize = bufsize ∧ s1.wIndex = 0 ∧ s1.rIndex = 0) := by
  cases pRingBuf with
  | none => simp [RingBuf_Init]
  | some rb =>
    cases pBuf with
    | none => simp [RingBuf_Init]
    | some buf =>
      by_cases h : bufsize = 0
      · simp [RingBuf_Init, h]
      · simp [RingBuf_Init, h]

/-- C9: fresh and reset buffers are empty. Directly after a successful
`RingBuf_Init` (any capacity, so every capacity of at least 2), and directly
after `RingBuf_ReInit` applied to any state, `RingBuf_isEmpty` reports
`RINGBUF_EMPTY` and `RingBuf_GetDataLen` returns 0; `RingBuf_ReInit` returns
`RINGBUF_OK` and leaves the capacity and every storage byte unchanged. -/
theorem fresh_and_reset_empty (pRingBuf : Option sRingBuf_t) (pBuf : Option Mem) (c : Nat)
    (s : sRingBuf_t) (hok : (RingBuf_Init pRingBuf pBuf c).1 = RINGBUF_OK) :
    RingBuf_isEmpty (RingBuf_Init pRingBuf pBuf c).2 = RINGBUF_EMPTY ∧
    RingBuf_GetDataLen (RingBuf_Init pRingBuf pBuf c).2 = 0 ∧
    (RingBuf_ReInit (some s)).1 = RINGBUF_OK ∧
    RingBuf_isEmpty (RingBuf_ReInit (some s)).2 = RINGBUF_EMPTY ∧
    RingBuf_GetDataLen (RingBuf_ReInit (some s)).2 = 0 ∧
    ∃ s1, (RingBuf_ReInit (some s)).2 = some s1 ∧ s1.bufsize = s.bufsize ∧
      s1.pBuf = s.pBuf := by
  refine ⟨?_, ?_, rfl, rfl, ?_, _, rfl, rfl, rfl⟩
  · cases pRingBuf with
    | none => simp [RingBuf_Init] at hok
    | some rb =>
      cases pBuf with
      | none => simp [RingBuf_Init] at hok
      | some buf =>
        by_cases h : c = 0
        · simp [RingBuf_Init, h] at hok
        · simp [RingBuf_Init, h, RingBuf_isEmpty]
  · cases pRingBuf with
    | none => simp [RingBuf_Init] at hok
    | some rb =>
      cases pBuf with
      | none => simp [RingBuf_Init] at hok
      | some buf =>
        by_cases h : c = 0
        · simp [RingBuf_Init, h] at hok
        · simp [RingBuf_Init, h, RingBuf_GetDataLen, u32sub]
  · simp [RingBuf_ReInit, RingBuf_GetDataLen, u32sub]

theorem fresh_and_reset_empty_witness :
    (RingBuf_Init (some rawHandle) (some Mem.zero) 2).1 = RINGBUF_OK ∧
    (RingBuf_isEmpty (RingBuf_Init (some rawHandle) (some Mem.zero) 2).2 = RINGBUF_EMPTY ∧
    RingBuf_GetDataLen (RingBuf_Init (some rawHandle) (some Mem.zero) 2).2 = 0 ∧
    (RingBuf_ReInit (some fullOfFour)).1 = RINGBUF_OK ∧
    RingBuf_isEmpty (RingBuf_ReInit (some fullOfFour)).2 = RINGBUF_EMPTY ∧
    RingBuf_GetDataLen (RingBuf_ReInit (some fullOfFour)).2 = 0 ∧
    ∃ s1, (RingBuf_ReInit (some fullOfFour)).2 = some s1 ∧ s1.bufsize = fullOfFour.bufsize ∧
      s1.pBuf = fullOfFour.pBuf) :=
  ⟨by decide, fresh_and_reset_empty (some rawHandle) (some Mem.zero) 2 fullOfFour (by decide)⟩

/-- C10: invalid arguments are rejected without mutation. For every buffer
state, `RingBuf_Write` with an absent source or length 0 and `RingBuf_Read`
with an absent destination or length 0 return `RINGBUF_ERROR` and leave the
handle (write cursor, read cursor, every storage byte) and the destination
unchanged. -/
theorem invalid_arguments_rejected (s : sRingBuf_t) (wBuf rBuf : Option Mem) (wLen rLen : Nat)
    (hW : wBuf = none ∨ wLen = 0) (hR : rBuf = none ∨ rLen = 0) :
    RingBuf_Write (some s) wBuf wLen = (RINGBUF_ERROR, some s) ∧
    RingBuf_Read (some s) rBuf rLen = (RINGBUF_ERROR, some s, rBuf) := by
  constructor
  · cases wBuf with
    | none => rfl
    | some src =>
      have h0 : wLen = 0 := by simpa using hW
      simp [RingBuf_Write, h0]
  · cases rBuf with
    | none => rfl
    | some dst =>
      have h0 : rLen = 0 := by simpa using hR
      simp [RingBuf_Read, h0]

theorem invalid_arguments_rejected_witness :
    ((none : Option Mem) = none ∨ 3 = 0) ∧ (some Mem.zero = none ∨ 0 = 0) ∧
    RingBuf_Write (some twoOfFour) none 3 = (RINGBUF_ERROR, some twoOfFour) ∧
    RingBuf_Read (some twoOfFour) (some Mem.zero) 0 =
      (RINGBUF_ERROR, some twoOfFour, some Mem.zero) :=
  ⟨Or.inl rfl, Or.inr rfl,
    invalid_arguments_rejected twoOfFour none (some Mem.zero) 3 0 (Or.inl rfl) (Or.inr rfl)⟩


/-- The data length stays below the capacity. -/
theorem dataLen_lt (s : sRingBuf_t) (h32 : s.bufsize < 4294967296)
    (hw : s.wIndex < s.bufsize) (hr : s.rIndex < s.bufsize) :
    RingBuf_GetDataLen (some s) < s.bufsize := by
  rw [dataLen_eq s h32 hw hr]; split <;> omega

/-- The data length of a handle given by its fields. -/
theorem dataLen_mk (p : Mem) (c w r : Nat) (h32 : c < 4294967296) (hw : w < c) (hr : r < c) :
    RingBuf_GetDataLen (some ⟨p, c, w, r⟩) = if r ≤ w then w - r else c - r + w :=
  dataLen_eq ⟨p, c, w, r⟩ h32 hw hr

/-- An accepted `RingBuf_WriteOneByte` keeps the cursors in range and adds one
to the data length. -/
theorem writeOneByte_dataLen (s : sRingBuf_t) (data : uint8_t) (h32 : s.bufsize < 4294967296)
    (hw : s.wIndex < s.bufsize) (hr : s.rIndex < s.bufsize)
    (hok : (RingBuf_WriteOneByte (some s) data).1 = RINGBUF_OK) :
    ∃ s1, (RingBuf_WriteOneByte (some s) data).2 = some s1 ∧ s1.bufsize = s.bufsize ∧
      s1.wIndex < s.bufsize ∧ s1.rIndex < s.bufsize ∧
      RingBuf_GetDataLen (some s1) = RingBuf_GetDataLen (some s) + 1 := by
  have ha : u32add s.wIndex 1 = s.wIndex + 1 := u32add_eq (by omega)
  have hm : (s.wIndex + 1) % s.bufsize =
      if s.wIndex + 1 < s.bufsize then s.wIndex + 1 else s.wIndex + 1 - s.bufsize :=
    mod_wrap (by omega)
  rw [writeOneByte_eq, ha] at hok ⊢
  by_cases hf : (s.wIndex + 1) % s.bufsize = s.rIndex
  · rw [if_pos hf] at hok; cases hok
  · rw [if_neg hf]
    have hw1 : (s.wIndex + 1) % s.bufsize < s.bufsize := Nat.mod_lt _ (by omega)
    refine ⟨_, rfl, rfl, hw1, hr, ?_⟩
    rw [dataLen_mk _ _ _ _ h32 hw1 hr, dataLen_eq s h32 hw hr]
    rw [hm] at hf ⊢
    split_ifs at hf ⊢ <;> omega

/-- An accepted `RingBuf_Write` of `n` bytes on a capacity of at most `2 ^ 31`
keeps the cursors in range and adds `n` to the data length. -/
theorem write_dataLen (s : sRingBuf_t) (src : Mem) (n : Nat) (hmax : s.bufsize ≤ 2147483648)
    (hw : s.wIndex < s.bufsize) (hr : s.rIndex < s.bufsize)
    (hok : (RingBuf_Write (some s) (some src) n).1 = RINGBUF_OK) :
    ∃ s1, (RingBuf_Write (some s) (some src) n).2 = some s1 ∧ s1.bufsize = s.bufsize ∧
      s1.wIndex < s.bufsize ∧ s1.rIndex < s.bufsize ∧
      RingBuf_GetDataLen (some s1) = RingBuf_GetDataLen (some s) + n := by
  have h32 : s.bufsize < 4294967296 := by omega
  have h1 : 1 ≤ n := by
    rcases Nat.eq_zero_or_pos n with h0 | h0
    · rw [h0] at hok; simp [RingBuf_Write] at hok
    · exact h0
  have hst := write_status s src n h32 hw hr h1
  have hfree : n ≤ s.bufsize - 1 - RingBuf_GetDataLen (some s) := by
    by_contra hf
    rw [if_pos (by omega)] at hst
    rw [hst] at hok
    cases hok
  obtain ⟨s1, hW, hb, hr1, hw1, -⟩ := write_ok s src n h32 hw hr h1 hfree
  have hd := dataLen_eq s h32 hw hr
  have hlt := dataLen_lt s h32 hw hr
  have ha : u32add s.wIndex n = s.wIndex + n := u32add_eq (by omega)
  rw [ha] at hw1
  have hw1lt : s1.wIndex < s.bufsize := by
    rw [hw1]
    split
    · rw [u32sub_eq (by assumption) (by omega)]; split at hd <;> omega
    · omega
  have hr1lt : s1.rIndex < s.bufsize := by rw [hr1]; exact hr
  refine ⟨s1, by rw [hW], hb, hw1lt, hr1lt, ?_⟩
  rw [dataLen_eq s1 (by omega) (by omega) (by omega), hb, hr1, hd, hw1]
  rw [hd] at hfree
  by_cases hge : s.wIndex + n ≥ s.bufsize
  · rw [if_pos hge, u32sub_eq hge (by omega)]
    split_ifs at hfree ⊢ <;> omega
  · rw [if_neg hge]
    split_ifs at hfree ⊢ <;> omega

/-- Every `RingBuf_Read` with a non-zero length returns `RINGBUF_OK` and keeps
the cursors in range. On a capacity of at most `2 ^ 31` a read of at most the
data length takes exactly that many bytes off it; a longer read leaves the data
length at least one whole capacity above the true difference. -/
theorem read_dataLen (s : sRingBuf_t) (dst : Mem) (n : Nat) (hmax : s.bufsize ≤ 2147483648)
    (hw : s.wIndex < s.bufsize) (hr : s.rIndex < s.bufsize) (hn : 1 ≤ n)
    (hn32 : n < 4294967296) :
    ∃ s1, (RingBuf_Read (some s) (some dst) n).2.1 = some s1 ∧ s1.bufsize = s.bufsize ∧
      s1.wIndex < s.bufsize ∧ s1.rIndex < s.bufsize ∧
      (n ≤ RingBuf_GetDataLen (some s) →
        RingBuf_GetDataLen (some s1) + n = RingBuf_GetDataLen (some s)) ∧
      (RingBuf_GetDataLen (some s) < n →
        RingBuf_GetDataLen (some s) + s.bufsize ≤ RingBuf_GetDataLen (some s1) + n) := by
  have h32 : s.bufsize < 4294967296 := by omega
  have hpos : 0 < s.bufsize := by omega
  have hr1 : u32add s.rIndex n % s.bufsize < s.bufsize := Nat.mod_lt _ hpos
  have hdiv := Nat.div_add_mod (u32add s.rIndex n) s.bufsize
  have hd := dataLen_eq s h32 hw hr
  refine ⟨{ s with rIndex := u32add s.rIndex n % s.bufsize }, ?_, rfl, hw, hr1, ?_, ?_⟩
  · simp only [RingBuf_Read]; rw [if_neg (by omega)]
  · intro hle
    rw [dataLen_mk _ _ _ _ h32 hw hr1]
    rw [hd] at hle ⊢
    have ha : u32add s.rIndex n = s.rIndex + n := u32add_eq (by split at hle <;> omega)
    have hm : (s.rIndex + n) % s.bufsize =
        if s.rIndex + n < s.bufsize then s.rIndex + n else s.rIndex + n - s.bufsize :=
      mod_wrap (by split at hle <;> omega)
    rw [ha, hm]
    split_ifs at hle ⊢ <;> omega
  · intro hlt
    rw [dataLen_mk _ _ _ _ h32 hw hr1]
    rw [hd] at hlt ⊢
    generalize u32add s.rIndex n % s.bufsize = r1 at hr1 hdiv ⊢
    have hx : u32add s.rIndex n = (s.rIndex + n) % 4294967296 := rfl
    rw [hx] at hdiv
    generalize hq : (s.rIndex + n) % 4294967296 / s.bufsize = q at hdiv
    rcases Nat.lt_or_ge q 1 with hq0 | hq1
    · have : q = 0 := by omega
      subst this
      simp only [Nat.mul_zero, Nat.zero_add] at hdiv
      split_ifs at hlt ⊢ <;> omega
    · rcases Nat.lt_or_ge q 2 with hq1' | hq2
      · have : q = 1 := by omega
        subst this
        simp only [Nat.mul_one] at hdiv
        split_ifs at hlt ⊢ <;> omega
      · have h2 : s.bufsize * 2 ≤ s.bufsize * q := Nat.mul_le_mul_left _ hq2
        split_ifs at hlt ⊢ <;> omega


/-- With a present handle and output byte `RingBuf_ReadOneByte` never returns
`RINGBUF_OK`: both statuses of `RingBuf_isEmpty` are non-zero. -/
theorem readOneByte_status (s : sRingBuf_t) (old : uint8_t) :
    (RingBuf_ReadOneByte (some s) (some old)).1 = RINGBUF_EMPTY := by
  simp only [RingBuf_ReadOneByte, RingBuf_isEmpty]
  split <;> simp [eRingBufState_t.isTrue, eRingBufState_t.toNat]

theorem read_len_pos (s : sRingBuf_t) (dst : Mem) (n : Nat)
    (hok : (RingBuf_Read (some s) (some dst) n).1 = RINGBUF_OK) : 1 ≤ n := by
  rcases Nat.eq_zero_or_pos n with h0 | h0
  · rw [h0] at hok; simp [RingBuf_Read] at hok
  · exact h0

/-- Invariant of a run of accepted calls on a capacity `c` of at most `2 ^ 31`:
with `K` bytes written and `J` bytes read so far, the data length is `K - J`,
or it exceeds that difference by at least one whole capacity (after a read of
more than was held). -/
theorem runCalls_inv (c : Nat) (hmax : c ≤ 2147483648) (calls : List Call) :
    ∀ (s : sRingBuf_t) (K J : Nat), s.bufsize = c → s.wIndex < c → s.rIndex < c →
      (∀ x ∈ calls, x.len < 4294967296) →
      (∀ st ∈ (runCalls (some s) calls).1, st = RINGBUF_OK) →
      (J + RingBuf_GetDataLen (some s) = K ∨ K + c ≤ J + RingBuf_GetDataLen (some s)) →
      ∃ s1, (runCalls (some s) calls).2 = some s1 ∧ s1.bufsize = c ∧
        s1.wIndex < c ∧ s1.rIndex < c ∧
        (J + bytesRead calls + RingBuf_GetDataLen (some s1) = K + bytesWritten calls ∨
          K + bytesWritten calls + c ≤ J + bytesRead calls + RingBuf_GetDataLen (some s1)) := by
  induction calls with
  | nil =>
    intro s K J hb hw hr _ _ hinv
    exact ⟨s, rfl, hb, hw, hr, by simpa [bytesRead, bytesWritten] using hinv⟩
  | cons x xs ih =>
    intro s K J hb hw hr hlen hall hinv
    have hlen1 : x.len < 4294967296 := hlen x (List.mem_cons_self _ _)
    have hlen2 : ∀ y ∈ xs, y.len < 4294967296 := fun y hy => hlen y (List.mem_cons_of_mem _ hy)
    have hrun : runCalls (some s) (x :: xs) =
        ((x.run (some s)).1 :: (runCalls (x.run (some s)).2 xs).1,
          (runCalls (x.run (some s)).2 xs).2) := rfl
    rw [hrun] at hall ⊢
    have hok : (x.run (some s)).1 = RINGBUF_OK := hall _ (List.mem_cons_self _ _)
    have hall2 : ∀ st ∈ (runCalls (x.run (some s)).2 xs).1, st = RINGBUF_OK :=
      fun st hst => hall st (List.mem_cons_of_mem _ hst)
    subst hb
    cases x with
    | writeOneByte data =>
      obtain ⟨s1, hs1, hb1, hw1, hr1, hd1⟩ :=
        writeOneByte_dataLen s data (by omega) hw hr hok
      have hs1' : (Call.run (some s) (Call.writeOneByte data)).2 = some s1 := hs1
      rw [hs1'] at hall2 ⊢
      obtain ⟨s2, h2, hb2, hw2, hr2, hinv2⟩ :=
        ih s1 (K + 1) J hb1 (by omega) (by omega) hlen2 hall2 (by omega)
      refine ⟨s2, h2, hb2, hw2, hr2, ?_⟩
      simp only [bytesRead, bytesWritten, List.map_cons, List.sum_cons, Call.written,
        Call.consumed] at hinv2 ⊢
      omega
    | readOneByte =>
      have h := readOneByte_status s 0
      have hok' : (RingBuf_ReadOneByte (some s) (some 0)).1 = RINGBUF_OK := hok
      rw [h] at hok'
      cases hok'
    | write src n =>
      obtain ⟨s1, hs1, hb1, hw1, hr1, hd1⟩ := write_dataLen s src n hmax hw hr hok
      have hs1' : (Call.run (some s) (Call.write src n)).2 = some s1 := hs1
      rw [hs1'] at hall2 ⊢
      obtain ⟨s2, h2, hb2, hw2, hr2, hinv2⟩ :=
        ih s1 (K + n) J hb1 (by omega) (by omega) hlen2 hall2 (by omega)
      refine ⟨s2, h2, hb2, hw2, hr2, ?_⟩
      simp only [bytesRead, bytesWritten, List.map_cons, List.sum_cons, Call.written,
        Call.consumed] at hinv2 ⊢
      omega
    | read n =>
      have hn : 1 ≤ n := read_len_pos s Mem.zero n hok
      obtain ⟨s1, hs1, hb1, hw1, hr1, hle, hgt⟩ :=
        read_dataLen s Mem.zero n hmax hw hr hn hlen1
      have hs1' : (Call.run (some s) (Call.read n)).2 = some s1 := hs1
      rw [hs1'] at hall2 ⊢
      have hinv1 : J + n + RingBuf_GetDataLen (some s1) = K ∨
          K + s.bufsize ≤ J + n + RingBuf_GetDataLen (some s1) := by
        rcases Nat.lt_or_ge (RingBuf_GetDataLen (some s)) n with h | h
        · have := hgt h
          omega
        · have := hle h
          omega
      obtain ⟨s2, h2, hb2, hw2, hr2, hinv2⟩ :=
        ih s1 K (J + n) hb1 (by omega) (by omega) hlen2 hall2 hinv1
      refine ⟨s2, h2, hb2, hw2, hr2, ?_⟩
      simp only [bytesRead, bytesWritten, List.map_cons, List.sum_cons, Call.written,
        Call.consumed] at hinv2 ⊢
      omega

/-- C7 as stated fails on a capacity above `2 ^ 31`: on the empty buffer of
capacity `2 ^ 31 + 1` with both cursors at `2 ^ 31`, `RingBuf_Write` of
`2 ^ 31` bytes returns `RINGBUF_OK` and the data length goes from 0 to 1, not
to `2 ^ 31`; from the fresh buffer the three calls write, read, write of
`2 ^ 31` bytes each all return `RINGBUF_OK`, with `2 ^ 32` bytes written and
`2 ^ 31` read, and the data length is 1. -/
theorem dataLen_wraps_at_large_capacity :
    (bigState.bufsize = 2147483649 ∧ bigState.wIndex = 2147483648 ∧
      bigState.rIndex = 2147483648 ∧ RingBuf_GetDataLen (some bigState) = 0) ∧
    ((RingBuf_Write (some bigState) (some Mem.zero) 2147483648).1 = RINGBUF_OK ∧
      RingBuf_GetDataLen (RingBuf_Write (some bigState) (some Mem.zero) 2147483648).2 = 1 ∧
      RingBuf_GetDataLen (RingBuf_Write (some bigState) (some Mem.zero) 2147483648).2 ≠
        RingBuf_GetDataLen (some bigState) + 2147483648) ∧
    ((runCalls (RingBuf_Init (some rawHandle) (some Mem.zero) 2147483649).2 bigCalls).1 =
        [RINGBUF_OK, RINGBUF_OK, RINGBUF_OK] ∧
      bytesWritten bigCalls = 4294967296 ∧ bytesRead bigCalls = 2147483648 ∧
      RingBuf_GetDataLen
        (runCalls (RingBuf_Init (some rawHandle) (some Mem.zero) 2147483649).2 bigCalls).2 = 1 ∧
      RingBuf_GetDataLen
        (runCalls (RingBuf_Init (some rawHandle) (some Mem.zero) 2147483649).2 bigCalls).2 ≠
        bytesWritten bigCalls - bytesRead bigCalls) := by
  decide


/-- C7, amended to capacities from 2 to `2 ^ 31`: for every state with both
cursors inside the storage, a call that returns `RINGBUF_OK` changes
`RingBuf_GetDataLen` by exactly `+1` for `RingBuf_WriteOneByte`, `+n` for
`RingBuf_Write` of `n` bytes and `-n` for `RingBuf_Read` of `n` bytes with
`n` at most the data length; and from a fresh buffer of that capacity, after a
sequence of calls that all return `RINGBUF_OK`, writing `k` bytes and reading
`j ≤ k` bytes in total, `RingBuf_GetDataLen` returns `k - j`. -/
theorem dataLen_counts_bytes (s : sRingBuf_t) (data : uint8_t) (src dst : Mem) (nW nR : Nat)
    (h0 : sRingBuf_t) (buf : Mem) (calls : List Call)
    (hc : 2 ≤ s.bufsize) (hmax : s.bufsize ≤ 2147483648)
    (hw : s.wIndex < s.bufsize) (hr : s.rIndex < s.bufsize)
    (hnR : nR ≤ RingBuf_GetDataLen (some s))
    (hlen : ∀ x ∈ calls, x.len < 4294967296)
    (hall : ∀ st ∈ (runCalls (RingBuf_Init (some h0) (some buf) s.bufsize).2 calls).1,
      st = RINGBUF_OK)
    (hjk : bytesRead calls ≤ bytesWritten calls) :
    ((RingBuf_WriteOneByte (some s) data).1 = RINGBUF_OK →
      RingBuf_GetDataLen (RingBuf_WriteOneByte (some s) data).2 =
        RingBuf_GetDataLen (some s) + 1) ∧
    ((RingBuf_Write (some s) (some src) nW).1 = RINGBUF_OK →
      RingBuf_GetDataLen (RingBuf_Write (some s) (some src) nW).2 =
        RingBuf_GetDataLen (some s) + nW) ∧
    ((RingBuf_Read (some s) (some dst) nR).1 = RINGBUF_OK →
      RingBuf_GetDataLen (RingBuf_Read (some s) (some dst) nR).2.1 + nR =
        RingBuf_GetDataLen (some s)) ∧
    RingBuf_GetDataLen (runCalls (RingBuf_Init (some h0) (some buf) s.bufsize).2 calls).2 =
      bytesWritten calls - bytesRead calls := by
  have h32 : s.bufsize < 4294967296 := by omega
  refine ⟨?_, ?_, ?_, ?_⟩
  · intro hok
    obtain ⟨s1, hs1, -, -, -, hd1⟩ := writeOneByte_dataLen s data h32 hw hr hok
    rw [hs1, hd1]
  · intro hok
    obtain ⟨s1, hs1, -, -, -, hd1⟩ := write_dataLen s src nW hmax hw hr hok
    rw [hs1, hd1]
  · intro hok
    have hlt := dataLen_lt s h32 hw hr
    obtain ⟨s1, hs1, -, -, -, hle, -⟩ :=
      read_dataLen s dst nR hmax hw hr (read_len_pos s dst nR hok) (by omega)
    rw [hs1, hle hnR]
  · have hinit : RingBuf_Init (some h0) (some buf) s.bufsize =
        (RINGBUF_OK, some ⟨buf, s.bufsize, 0, 0⟩) := by
      simp only [RingBuf_Init]; rw [if_neg (by omega)]
    rw [hinit] at hall ⊢
    have hd0 : RingBuf_GetDataLen (some ⟨buf, s.bufsize, 0, 0⟩) = 0 := by
      rw [dataLen_mk _ _ _ _ h32 (by omega) (by omega)]; simp
    obtain ⟨s1, hs1, hb1, hw1, hr1, hinv⟩ :=
      runCalls_inv s.bufsize hmax calls ⟨buf, s.bufsize, 0, 0⟩ 0 0 rfl
        (by simp only; omega) (by simp only; omega) hlen hall (by rw [hd0]; simp)
    have hs1' : (runCalls (RINGBUF_OK, some ⟨buf, s.bufsize, 0, 0⟩).2 calls).2 = some s1 := hs1
    have hlt := dataLen_lt s1 (by omega) (by omega) (by omega)
    rw [hs1']
    omega

theorem dataLen_counts_bytes_witness :
    (2 ≤ twoOfFour.bufsize ∧ twoOfFour.bufsize ≤ 2147483648 ∧
      twoOfFour.wIndex < twoOfFour.bufsize ∧ twoOfFour.rIndex < twoOfFour.bufsize ∧
      2 ≤ RingBuf_GetDataLen (some twoOfFour) ∧
      (∀ x ∈ smallCalls, x.len < 4294967296) ∧
      (∀ st ∈ (runCalls (RingBuf_Init (some rawHandle) (some Mem.zero) twoOfFour.bufsize).2
        smallCalls).1, st = RINGBUF_OK) ∧
      bytesRead smallCalls ≤ bytesWritten smallCalls ∧
      bytesWritten smallCalls = 5 ∧ bytesRead smallCalls = 3 ∧
      (RingBuf_WriteOneByte (some twoOfFour) 9).1 = RINGBUF_OK ∧
      (RingBuf_Write (some twoOfFour) (some (Mem.ofList [9])) 1).1 = RINGBUF_OK ∧
      (RingBuf_Read (some twoOfFour) (some Mem.zero) 2).1 = RINGBUF_OK) ∧
    (RingBuf_GetDataLen (RingBuf_WriteOneByte (some twoOfFour) 9).2 =
        RingBuf_GetDataLen (some twoOfFour) + 1 ∧
      RingBuf_GetDataLen (RingBuf_Write (some twoOfFour) (some (Mem.ofList [9])) 1).2 =
        RingBuf_GetDataLen (some twoOfFour) + 1 ∧
      RingBuf_GetDataLen (RingBuf_Read (some twoOfFour) (some Mem.zero) 2).2.1 + 2 =
        RingBuf_GetDataLen (some twoOfFour) ∧
      RingBuf_GetDataLen
        (runCalls (RingBuf_Init (some rawHandle) (some Mem.zero) twoOfFour.bufsize).2
          smallCalls).2 = bytesWritten smallCalls - bytesRead smallCalls) :=
  have h := dataLen_counts_bytes twoOfFour 9 (Mem.ofList [9]) Mem.zero 1 2 rawHandle Mem.zero
    smallCalls (by decide) (by decide) (by decide) (by decide) (by decide) (by decide)
    (by decide) (by decide)
  ⟨by decide, h.1 (by decide), h.2.1 (by decide), h.2.2.1 (by decide), h.2.2.2⟩


/-- C11: the concrete scenario of the specification, run on the code with
capacity 4. `RingBuf_Init` succeeds, `RingBuf_Write([1,2,3], 3)` returns
`RINGBUF_OK`, `RingBuf_isFull` reports `RINGBUF_FULL` and
`RingBuf_WriteOneByte(4)` returns `RINGBUF_FULL`, as claimed. Then
`RingBuf_ReadOneByte` returns `RINGBUF_EMPTY` instead of `RINGBUF_OK` and
delivers nothing (the output byte keeps its value `0`, not `1`); the buffer
stays full, so the next `RingBuf_WriteOneByte(4)` returns `RINGBUF_FULL`
instead of `RINGBUF_OK`, and `RingBuf_Read` of 3 bytes delivers `[1,2,3]`
instead of `[2,3,4]`. -/
theorem scenario_readOneByte_reports_empty :
    (RingBuf_Init (some rawHandle) (some Mem.zero) 4).1 = RINGBUF_OK ∧
    (RingBuf_Write (RingBuf_Init (some rawHandle) (some Mem.zero) 4).2
      (some (Mem.ofList [1, 2, 3])) 3).1 = RINGBUF_OK ∧
    RingBuf_isFull
      (RingBuf_Write (RingBuf_Init (some rawHandle) (some Mem.zero) 4).2
        (some (Mem.ofList [1, 2, 3])) 3).2 = RINGBUF_FULL ∧
    (RingBuf_WriteOneByte
      (RingBuf_Write (RingBuf_Init (some rawHandle) (some Mem.zero) 4).2
        (some (Mem.ofList [1, 2, 3])) 3).2 4).1 = RINGBUF_FULL ∧
    (RingBuf_ReadOneByte scenarioFull (some 0)).1 = RINGBUF_EMPTY ∧
    (RingBuf_ReadOneByte scenarioFull (some 0)).1 ≠ RINGBUF_OK ∧
    (RingBuf_ReadOneByte scenarioFull (some 0)).2.2 = some 0 ∧
    (RingBuf_ReadOneByte scenarioFull (some 0)).2.2 ≠ some 1 ∧
    (RingBuf_WriteOneByte (RingBuf_ReadOneByte scenarioFull (some 0)).2.1 4).1 = RINGBUF_FULL ∧
    (RingBuf_Read
      (RingBuf_WriteOneByte (RingBuf_ReadOneByte scenarioFull (some 0)).2.1 4).2
      (some Mem.zero) 3).1 = RINGBUF_OK ∧
    (RingBuf_Read
      (RingBuf_WriteOneByte (RingBuf_ReadOneByte scenarioFull (some 0)).2.1 4).2
      (some Mem.zero) 3).2.2.map (fun m => Mem.take m 3) = some [1, 2, 3] := by
  decide


/-- C12 as stated fails on a capacity above `2 ^ 31`: on the buffer of
capacity `2 ^ 31 + 1` with the read cursor at `2 ^ 31`, `RingBuf_Read` of
`2 ^ 31` bytes (no more than the capacity) returns `RINGBUF_OK` and sets the
read cursor to 0, while `(rIndex + n) mod bufsize` is `2 ^ 31 - 1`. -/
theorem read_cursor_wraps_at_large_capacity :
    bigState.bufsize = 2147483649 ∧ bigState.rIndex = 2147483648 ∧
    bigState.wIndex < bigState.bufsize ∧
    (RingBuf_Read (some bigState) (some Mem.zero) 2147483648).1 = RINGBUF_OK ∧
    (RingBuf_Read (some bigState) (some Mem.zero) 2147483648).2.1.map (fun s => s.rIndex)
      = some 0 ∧
    (bigState.rIndex + 2147483648) % bigState.bufsize = 2147483647 := by
  decide

/-- C12, amended in the cursor update: for every state with both cursors
inside the storage, a present destination and every length `n` of at least 1,
`RingBuf_Read` returns `RINGBUF_OK` whether or not `n` exceeds the data length,
sets the read cursor to `((rIndex + n) mod 2 ^ 32) mod bufsize`, which is
`(rIndex + n) mod bufsize` whenever `rIndex + n < 2 ^ 32`, and leaves the write
cursor, the capacity and the storage unchanged; and for every `n` of at most
the capacity the `i`-th output byte is `storage[(rIndex + i) mod bufsize]`. -/
theorem read_unchecked (s : sRingBuf_t) (dst : Mem) (n : Nat)
    (h32 : s.bufsize < 4294967296) (_hw : s.wIndex < s.bufsize) (hr : s.rIndex < s.bufsize)
    (hn : 1 ≤ n) :
    (RingBuf_Read (some s) (some dst) n).1 = RINGBUF_OK ∧
    ∃ s1 out, (RingBuf_Read (some s) (some dst) n).2 = (some s1, some out) ∧
      s1.rIndex = (s.rIndex + n) % 4294967296 % s.bufsize ∧
      (s.rIndex + n < 4294967296 → s1.rIndex = (s.rIndex + n) % s.bufsize) ∧
      s1.wIndex = s.wIndex ∧ s1.pBuf = s.pBuf ∧ s1.bufsize = s.bufsize ∧
      (n ≤ s.bufsize → ∀ i, i < n → out i = s.pBuf ((s.rIndex + i) % s.bufsize)) := by
  have hR : RingBuf_Read (some s) (some dst) n =
      (RINGBUF_OK, some { s with rIndex := u32add s.rIndex n % s.bufsize },
        (RingBuf_Read (some s) (some dst) n).2.2) := by
    simp only [RingBuf_Read]; rw [if_neg (by omega)]
  rcases h : (RingBuf_Read (some s) (some dst) n).2.2 with _ | out
  · exfalso
    simp only [RingBuf_Read] at h; rw [if_neg (by omega)] at h
    cases h
  · rw [h] at hR
    rw [hR]
    refine ⟨rfl, _, out, rfl, rfl, ?_, rfl, rfl, rfl, ?_⟩
    · intro hlt
      show u32add s.rIndex n % s.bufsize = _
      rw [u32add_eq hlt]
    · intro hle i hi
      obtain ⟨out', hR', ho⟩ := read_ok s dst n h32 hr hn hle
      rw [hR'] at hR
      have : out' = out := by
        have h2 := congrArg (fun p => p.2.2) hR
        simpa using h2
      subst this
      rw [ho i, if_pos hi, mod_wrap (by omega)]

theorem read_unchecked_witness :
    (twoOfFour.bufsize < 4294967296 ∧ twoOfFour.wIndex < twoOfFour.bufsize ∧
      twoOfFour.rIndex < twoOfFour.bufsize ∧ RingBuf_GetDataLen (some twoOfFour) < 3 ∧
      twoOfFour.rIndex + 3 < 4294967296 ∧ 3 ≤ twoOfFour.bufsize) ∧
    ((RingBuf_Read (some twoOfFour) (some Mem.zero) 3).1 = RINGBUF_OK ∧
    ∃ s1 out, (RingBuf_Read (some twoOfFour) (some Mem.zero) 3).2 = (some s1, some out) ∧
      s1.rIndex = (twoOfFour.rIndex + 3) % 4294967296 % twoOfFour.bufsize ∧
      (twoOfFour.rIndex + 3 < 4294967296 →
        s1.rIndex = (twoOfFour.rIndex + 3) % twoOfFour.bufsize) ∧
      s1.wIndex = twoOfFour.wIndex ∧ s1.pBuf = twoOfFour.pBuf ∧
      s1.bufsize = twoOfFour.bufsize ∧
      (3 ≤ twoOfFour.bufsize →
        ∀ i, i < 3 → out i = twoOfFour.pBuf ((twoOfFour.rIndex + i) % twoOfFour.bufsize))) :=
  ⟨by decide,
    read_unchecked twoOfFour Mem.zero 3 (by decide) (by decide) (by decide) (by decide)⟩


/-- With a present handle and output byte `RingBuf_ReadOneByte` changes
neither the handle nor the output byte. -/
theorem readOneByte_eq (s : sRingBuf_t) (old : uint8_t) :
    RingBuf_ReadOneByte (some s) (some old) = (RINGBUF_EMPTY, some s, some old) := by
  simp only [RingBuf_ReadOneByte, RingBuf_isEmpty]
  split <;> simp [eRingBufState_t.isTrue, eRingBufState_t.toNat]

/-- The write cursor after an accepted bulk write is inside the storage,
for every 32-bit capacity. -/
theorem write_cursor_lt (s : sRingBuf_t) (n : Nat) (h32 : s.bufsize < 4294967296)
    (hw : s.wIndex < s.bufsize) (hr : s.rIndex < s.bufsize)
    (hfree : n ≤ s.bufsize - 1 - RingBuf_GetDataLen (some s)) :
    (if u32add s.wIndex n ≥ s.bufsize then u32sub (u32add s.wIndex n) s.bufsize
      else u32add s.wIndex n) < s.bufsize := by
  have hlt := dataLen_lt s h32 hw hr
  simp only [u32add, u32sub, ge_iff_le]
  split <;> omega

/-- Handle after a bulk write, whatever its arguments and status: the read
cursor and the capacity are as before and the write cursor is in range. -/
theorem write_keeps_range (s : sRingBuf_t) (wBuf : Option Mem) (n : Nat)
    (h32 : s.bufsize < 4294967296) (hw : s.wIndex < s.bufsize) (hr : s.rIndex < s.bufsize) :
    ∃ s1, (RingBuf_Write (some s) wBuf n).2 = some s1 ∧ s1.bufsize = s.bufsize ∧
      s1.wIndex < s.bufsize ∧ s1.rIndex = s.rIndex := by
  cases wBuf with
  | none => exact ⟨s, rfl, rfl, hw, rfl⟩
  | some src =>
    rcases Nat.eq_zero_or_pos n with h0 | h0
    · subst h0
      exact ⟨s, by simp [RingBuf_Write], rfl, hw, rfl⟩
    · have hst := write_status s src n h32 hw hr h0
      by_cases hf : n > s.bufsize - 1 - RingBuf_GetDataLen (some s)
      · rw [if_pos hf] at hst
        exact ⟨s, by rw [hst], rfl, hw, rfl⟩
      · obtain ⟨s1, hW, hb, hr1, hw1, -⟩ := write_ok s src n h32 hw hr h0 (by omega)
        refine ⟨s1, by rw [hW], hb, ?_, hr1⟩
        rw [hw1]
        exact write_cursor_lt s n h32 hw hr (by omega)

/-- C13: the cursor range invariant. After a successful `RingBuf_Init` with a
capacity of at least 1 both cursors are inside the storage; and each of
`RingBuf_ReInit`, `RingBuf_WriteOneByte`, `RingBuf_ReadOneByte`,
`RingBuf_Write` and `RingBuf_Read`, with any arguments and whatever status it
returns, takes a state with both cursors inside the storage to a state with
both cursors inside the storage and the same capacity. -/
theorem cursor_range_invariant (c : Nat) (pRingBuf : Option sRingBuf_t) (pBuf : Option Mem)
    (s : sRingBuf_t) (data : uint8_t) (out : Option uint8_t) (wBuf rBuf : Option Mem)
    (wLen rLen : Nat)
    (hc : 1 ≤ c) (h32 : c < 4294967296)
    (hinit : (RingBuf_Init pRingBuf pBuf c).1 = RINGBUF_OK)
    (hs : cursorsInRange c (some s) = true) :
    cursorsInRange c (RingBuf_Init pRingBuf pBuf c).2 = true ∧
    cursorsInRange c (RingBuf_ReInit (some s)).2 = true ∧
    cursorsInRange c (RingBuf_WriteOneByte (some s) data).2 = true ∧
    cursorsInRange c (RingBuf_ReadOneByte (some s) out).2.1 = true ∧
    cursorsInRange c (RingBuf_Write (some s) wBuf wLen).2 = true ∧
    cursorsInRange c (RingBuf_Read (some s) rBuf rLen).2.1 = true := by
  simp only [cursorsInRange, Bool.and_eq_true, decide_eq_true_eq] at hs
  obtain ⟨⟨hb, hw⟩, hr⟩ := hs
  subst hb
  have hpos : 0 < s.bufsize := by omega
  refine ⟨?_, ?_, ?_, ?_, ?_, ?_⟩
  · cases pRingBuf with
    | none => simp [RingBuf_Init] at hinit
    | some rb =>
      cases pBuf with
      | none => simp [RingBuf_Init] at hinit
      | some buf =>
        have h0 : ¬ s.bufsize = 0 := by omega
        simp [RingBuf_Init, h0, cursorsInRange, hpos]
  · simp [RingBuf_ReInit, cursorsInRange, hpos]
  · rw [writeOneByte_eq]
    split
    · simp [cursorsInRange, hw, hr]
    · simp [cursorsInRange, hr, Nat.mod_lt _ hpos]
  · cases out with
    | none => simp [RingBuf_ReadOneByte, cursorsInRange, hw, hr]
    | some old => rw [readOneByte_eq]; simp [cursorsInRange, hw, hr]
  · obtain ⟨s1, h1, hb1, hw1, hr1⟩ := write_keeps_range s wBuf wLen h32 hw hr
    rw [h1]
    simp [cursorsInRange, hb1, hw1, hr1, hr]
  · cases rBuf with
    | none => simp [RingBuf_Read, cursorsInRange, hw, hr]
    | some dst =>
      rcases Nat.eq_zero_or_pos rLen with h0 | h0
      · subst h0
        simp [RingBuf_Read, cursorsInRange, hw, hr]
      · have hne : ¬ rLen = 0 := by omega
        simp [RingBuf_Read, hne, cursorsInRange, hw, Nat.mod_lt _ hpos]

theorem cursor_range_invariant_witness :
    (1 ≤ 4 ∧ 4 < 4294967296 ∧
      (RingBuf_Init (some rawHandle) (some Mem.zero) 4).1 = RINGBUF_OK ∧
      cursorsInRange 4 (some fullOfFour) = true) ∧
    (cursorsInRange 4 (RingBuf_Init (some rawHandle) (some Mem.zero) 4).2 = true ∧
    cursorsInRange 4 (RingBuf_ReInit (some fullOfFour)).2 = true ∧
    cursorsInRange 4 (RingBuf_WriteOneByte (some fullOfFour) 9).2 = true ∧
    cursorsInRange 4 (RingBuf_ReadOneByte (some fullOfFour) (some 0)).2.1 = true ∧
    cursorsInRange 4 (RingBuf_Write (some fullOfFour) (some Mem.zero) 2).2 = true ∧
    cursorsInRange 4 (RingBuf_Read (some fullOfFour) (some Mem.zero) 7).2.1 = true) :=
  ⟨by decide,
    cursor_range_invariant 4 (some rawHandle) (some Mem.zero) fullOfFour 9 (some 0)
      (some Mem.zero) (some Mem.zero) 2 7 (by decide) (by decide) (by decide) (by decide)⟩


/-- C14: the data length formula. For every capacity of at least 1 and every
state with both cursors inside the storage, the value `RingBuf_GetDataLen`
returns, computed in 32-bit unsigned arithmetic, is `wIndex - rIndex` when
`wIndex ≥ rIndex` and `bufsize - rIndex + wIndex` otherwise, and equals
`(wIndex - rIndex + bufsize) mod bufsize` over the integers; for an absent
handle it returns 0. -/
theorem dataLen_formula (s : sRingBuf_t) (_hc : 1 ≤ s.bufsize) (h32 : s.bufsize < 4294967296)
    (hw : s.wIndex < s.bufsize) (hr : s.rIndex < s.bufsize) :
    RingBuf_GetDataLen (some s) =
      (if s.wIndex ≥ s.rIndex then s.wIndex - s.rIndex
        else s.bufsize - s.rIndex + s.wIndex) ∧
    (RingBuf_GetDataLen (some s) : Int) =
      ((s.wIndex : Int) - (s.rIndex : Int) + (s.bufsize : Int)) % (s.bufsize : Int) ∧
    RingBuf_GetDataLen none = 0 := by
  have hd := dataLen_eq s h32 hw hr
  refine ⟨hd, ?_, rfl⟩
  rw [hd]
  by_cases hle : s.rIndex ≤ s.wIndex
  · rw [if_pos hle]
    have h1 : (s.wIndex : Int) - (s.rIndex : Int) + (s.bufsize : Int) =
        ((s.wIndex - s.rIndex : Nat) : Int) + (s.bufsize : Int) := by omega
    rw [h1, Int.add_emod_self, Int.emod_eq_of_lt (by omega) (by omega)]
  · rw [if_neg hle, Int.emod_eq_of_lt (by omega) (by omega)]
    omega

theorem dataLen_formula_witness :
    (1 ≤ wrapState.bufsize ∧ wrapState.bufsize < 4294967296 ∧
      wrapState.wIndex < wrapState.bufsize ∧ wrapState.rIndex < wrapState.bufsize) ∧
    (RingBuf_GetDataLen (some wrapState) =
      (if wrapState.wIndex ≥ wrapState.rIndex then wrapState.wIndex - wrapState.rIndex
        else wrapState.bufsize - wrapState.rIndex + wrapState.wIndex) ∧
    (RingBuf_GetDataLen (some wrapState) : Int) =
      ((wrapState.wIndex : Int) - (wrapState.rIndex : Int) + (wrapState.bufsize : Int)) %
        (wrapState.bufsize : Int) ∧
    RingBuf_GetDataLen none = 0) :=
  ⟨by decide, dataLen_formula wrapState (by decide) (by decide) (by decide) (by decide)⟩

/-- C15: the usable capacity is `bufsize - 1`. For every capacity of at least
1 and every state with both cursors inside the storage, `RingBuf_GetDataLen`
returns at most `bufsize - 1`; `RingBuf_isFull` reports `RINGBUF_FULL` iff
`RingBuf_GetDataLen` returns exactly `bufsize - 1`; and `RingBuf_isEmpty`
reports `RINGBUF_EMPTY` iff `RingBuf_GetDataLen` returns 0. -/
theorem usable_capacity (s : sRingBuf_t) (hc : 1 ≤ s.bufsize) (h32 : s.bufsize < 4294967296)
    (hw : s.wIndex < s.bufsize) (hr : s.rIndex < s.bufsize) :
    RingBuf_GetDataLen (some s) ≤ s.bufsize - 1 ∧
    (RingBuf_isFull (some s) = RINGBUF_FULL ↔ RingBuf_GetDataLen (some s) = s.bufsize - 1) ∧
    (RingBuf_isEmpty (some s) = RINGBUF_EMPTY ↔ RingBuf_GetDataLen (some s) = 0) := by
  have hd := dataLen_eq s h32 hw hr
  have hlt := dataLen_lt s h32 hw hr
  have ha : u32add s.wIndex 1 = s.wIndex + 1 := u32add_eq (by omega)
  have hm : (s.wIndex + 1) % s.bufsize =
      if s.wIndex + 1 < s.bufsize then s.wIndex + 1 else s.wIndex + 1 - s.bufsize :=
    mod_wrap (by omega)
  refine ⟨by omega, ?_, ?_⟩
  · simp only [RingBuf_isFull]
    rw [ha, hm, hd]
    by_cases hf : (if s.wIndex + 1 < s.bufsize then s.wIndex + 1
        else s.wIndex + 1 - s.bufsize) = s.rIndex
    · rw [if_pos hf]
      refine ⟨fun _ => ?_, fun _ => rfl⟩
      split_ifs at hf ⊢ <;> omega
    · rw [if_neg hf]
      refine ⟨fun h => (by cases h), fun h => ?_⟩
      exfalso
      apply hf
      split_ifs at h ⊢ <;> omega
  · simp only [RingBuf_isEmpty]
    rw [hd]
    by_cases he : s.wIndex = s.rIndex
    · rw [if_pos he]
      refine ⟨fun _ => ?_, fun _ => rfl⟩
      split_ifs <;> omega
    · rw [if_neg he]
      refine ⟨fun h => (by cases h), fun h => ?_⟩
      exfalso
      apply he
      split_ifs at h <;> omega

theorem usable_capacity_witness :
    (1 ≤ fullOfFour.bufsize ∧ fullOfFour.bufsize < 4294967296 ∧
      fullOfFour.wIndex < fullOfFour.bufsize ∧ fullOfFour.rIndex < fullOfFour.bufsize ∧
      RingBuf_isFull (some fullOfFour) = RINGBUF_FULL) ∧
    (RingBuf_GetDataLen (some fullOfFour) ≤ fullOfFour.bufsize - 1 ∧
    (RingBuf_isFull (some fullOfFour) = RINGBUF_FULL ↔
      RingBuf_GetDataLen (some fullOfFour) = fullOfFour.bufsize - 1) ∧
    (RingBuf_isEmpty (some fullOfFour) = RINGBUF_EMPTY ↔
      RingBuf_GetDataLen (some fullOfFour) = 0)) :=
  ⟨by decide, usable_capacity fullOfFour (by decide) (by decide) (by decide) (by decide)⟩

/-- C17 as stated fails at capacity 1, which the data model allows: directly
after `RingBuf_Init` with `bufsize = 1` both cursors are 0, inside the
storage, and the buffer reports `RINGBUF_FULL` and `RINGBUF_EMPTY` at once. -/
theorem full_and_empty_at_capacity_one :
    (RingBuf_Init (some rawHandle) (some Mem.zero) 1).1 = RINGBUF_OK ∧
    cursorsInRange 1 freshOfOne = true ∧
    RingBuf_isFull freshOfOne = RINGBUF_FULL ∧
    RingBuf_isEmpty freshOfOne = RINGBUF_EMPTY ∧
    RingBuf_isEmpty freshOfOne ≠ RINGBUF_NOTEMPTY := by
  decide

/-- C17, amended to capacities of at least 2: for every state with both
cursors inside the storage, if `RingBuf_isFull` reports `RINGBUF_FULL` then
`RingBuf_isEmpty` reports `RINGBUF_NOTEMPTY`; no such state is both full and
empty. -/
theorem full_is_not_empty (s : sRingBuf_t) (hc : 2 ≤ s.bufsize) (h32 : s.bufsize < 4294967296)
    (hw : s.wIndex < s.bufsize) (_hr : s.rIndex < s.bufsize)
    (hfull : RingBuf_isFull (some s) = RINGBUF_FULL) :
    RingBuf_isEmpty (some s) = RINGBUF_NOTEMPTY := by
  have ha : u32add s.wIndex 1 = s.wIndex + 1 := u32add_eq (by omega)
  have hm : (s.wIndex + 1) % s.bufsize =
      if s.wIndex + 1 < s.bufsize then s.wIndex + 1 else s.wIndex + 1 - s.bufsize :=
    mod_wrap (by omega)
  simp only [RingBuf_isFull] at hfull
  rw [ha, hm] at hfull
  simp only [RingBuf_isEmpty]
  by_cases he : s.wIndex = s.rIndex
  · exfalso
    by_cases hf : (if s.wIndex + 1 < s.bufsize then s.wIndex + 1
        else s.wIndex + 1 - s.bufsize) = s.rIndex
    · split_ifs at hf <;> omega
    · rw [if_neg hf] at hfull; cases hfull
  · rw [if_neg he]

theorem full_is_not_empty_witness :
    (2 ≤ fullOfFour.bufsize ∧ fullOfFour.bufsize < 4294967296 ∧
      fullOfFour.wIndex < fullOfFour.bufsize ∧ fullOfFour.rIndex < fullOfFour.bufsize ∧
      RingBuf_isFull (some fullOfFour) = RINGBUF_FULL) ∧
    RingBuf_isEmpty (some fullOfFour) = RINGBUF_NOTEMPTY :=
  ⟨by decide,
    full_is_not_empty fullOfFour (by decide) (by decide) (by decide) (by decide) (by decide)⟩

/-- C18: `RingBuf_ReadOneByte` tests the status of `RingBuf_isEmpty` for being
non-zero, and `RINGBUF_EMPTY` (2) and `RINGBUF_NOTEMPTY` (3) are both
non-zero; so for every buffer state with a present handle and output byte,
empty or not, `RingBuf_ReadOneByte` returns `RINGBUF_EMPTY`, never
`RINGBUF_OK`, and leaves the read cursor, the write cursor, the storage and
the output byte unchanged. -/
theorem readOneByte_always_empty (s : sRingBuf_t) (old : uint8_t) :
    eRingBufState_t.toNat RINGBUF_EMPTY = 2 ∧ eRingBufState_t.toNat RINGBUF_NOTEMPTY = 3 ∧
    (RingBuf_isEmpty (some s)).isTrue = true ∧
    (RingBuf_ReadOneByte (some s) (some old)).1 = RINGBUF_EMPTY ∧
    (RingBuf_ReadOneByte (some s) (some old)).1 ≠ RINGBUF_OK ∧
    (RingBuf_ReadOneByte (some s) (some old)).2.1 = some s ∧
    (RingBuf_ReadOneByte (some s) (some old)).2.2 = some old := by
  have h := readOneByte_eq s old
  refine ⟨rfl, rfl, ?_, by rw [h], (by rw [h]; intro h2; cases h2), by rw [h], by rw [h]⟩
  simp only [RingBuf_isEmpty]
  split <;> rfl


/-- C16 as stated fails on a capacity above `2 ^ 31`: on the empty buffer of
capacity `2 ^ 31 + 1` with both cursors at `2 ^ 31`, a write of `2 ^ 31` bytes
passes the free-space check, the 32-bit sum `wIndex + n` wraps to 0, and the
new write cursor is 0 while `(wIndex + n) mod bufsize` is `2 ^ 31 - 1`. -/
theorem write_cursor_wraps_at_large_capacity :
    1 ≤ bigState.bufsize ∧ bigState.bufsize ≤ 4294967295 ∧
    bigState.wIndex < bigState.bufsize ∧ bigState.rIndex < bigState.bufsize ∧
    bigState.wIndex = 2147483648 ∧
    (RingBuf_Write (some bigState) (some Mem.zero) 2147483648).1 = RINGBUF_OK ∧
    (RingBuf_Write (some bigState) (some Mem.zero) 2147483648).2.map (fun s => s.wIndex)
      = some 0 ∧
    (bigState.wIndex + 2147483648) % bigState.bufsize = 2147483647 := by
  decide

/-- C16, amended: for every capacity from 1 to `2 ^ 32 - 1`, every state with
both cursors inside the storage and every length `n` accepted by the
free-space check, if the capacity is at most `2 ^ 31` or, more generally,
`wIndex + n < 2 ^ 32`, the new write cursor computed by `RingBuf_Write` in
32-bit unsigned arithmetic equals `(wIndex + n) mod bufsize`. -/
theorem write_cursor_is_modulo (s : sRingBuf_t) (src : Mem) (n : Nat)
    (_hc : 1 ≤ s.bufsize) (h32 : s.bufsize < 4294967296)
    (hw : s.wIndex < s.bufsize) (hr : s.rIndex < s.bufsize)
    (hsum : s.bufsize ≤ 2147483648 ∨ s.wIndex + n < 4294967296)
    (hok : (RingBuf_Write (some s) (some src) n).1 = RINGBUF_OK) :
    ∃ s1, (RingBuf_Write (some s) (some src) n).2 = some s1 ∧
      s1.wIndex = (s.wIndex + n) % s.bufsize := by
  have h1 : 1 ≤ n := by
    rcases Nat.eq_zero_or_pos n with h0 | h0
    · rw [h0] at hok; simp [RingBuf_Write] at hok
    · exact h0
  have hst := write_status s src n h32 hw hr h1
  have hfree : n ≤ s.bufsize - 1 - RingBuf_GetDataLen (some s) := by
    by_contra hf
    rw [if_pos (by omega)] at hst
    rw [hst] at hok
    cases hok
  obtain ⟨s1, hW, -, -, hw1, -⟩ := write_ok s src n h32 hw hr h1 hfree
  have hlt := dataLen_lt s h32 hw hr
  have ha : u32add s.wIndex n = s.wIndex + n := u32add_eq (by omega)
  refine ⟨s1, by rw [hW], ?_⟩
  rw [hw1, ha, mod_wrap (by omega)]
  by_cases hge : s.wIndex + n ≥ s.bufsize
  · rw [if_pos hge, if_neg (by omega), u32sub_eq hge (by omega)]
  · rw [if_neg hge, if_pos (by omega)]

theorem write_cursor_is_modulo_witness :
    (1 ≤ wrapState.bufsize ∧ wrapState.bufsize < 4294967296 ∧
      wrapState.wIndex < wrapState.bufsize ∧ wrapState.rIndex < wrapState.bufsize ∧
      (wrapState.bufsize ≤ 2147483648 ∨ wrapState.wIndex + 5 < 4294967296) ∧
      (RingBuf_Write (some wrapState) (some Mem.zero) 5).1 = RINGBUF_OK ∧
      (wrapState.wIndex + 5) % wrapState.bufsize = 3) ∧
    ∃ s1, (RingBuf_Write (some wrapState) (some Mem.zero) 5).2 = some s1 ∧
      s1.wIndex = (wrapState.wIndex + 5) % wrapState.bufsize :=
  ⟨by decide,
    write_cursor_is_modulo wrapState Mem.zero 5 (by decide) (by decide) (by decide)
      (by decide) (by decide) (by decide)⟩

/-- C19 as stated fails on a capacity above `2 ^ 31`: on the empty buffer of
capacity `c = 2 ^ 31 + 1` with both cursors at `2 ^ 31`, `RingBuf_Read` of
`n = 2 ^ 31` bytes (with `0 < n ≤ c`) returns `RINGBUF_OK` and afterwards
`RingBuf_GetDataLen` returns `2 ^ 31`, not `c - (n - 0) = 1`. -/
theorem over_read_wraps_at_large_capacity :
    2 ≤ bigState.bufsize ∧ bigState.wIndex < bigState.bufsize ∧
    bigState.rIndex < bigState.bufsize ∧ RingBuf_GetDataLen (some bigState) = 0 ∧
    2147483648 ≤ bigState.bufsize ∧ 2147483648 - 0 < bigState.bufsize ∧
    (RingBuf_Read (some bigState) (some Mem.zero) 2147483648).1 = RINGBUF_OK ∧
    RingBuf_GetDataLen (RingBuf_Read (some bigState) (some Mem.zero) 2147483648).2.1
      = 2147483648 ∧
    bigState.bufsize - (2147483648 - RingBuf_GetDataLen (some bigState)) = 1 := by
  decide

/-- C19, amended: for every capacity `c` of at least 2, every state with both
cursors inside the storage holding `d` unread bytes, and every length `n` with
`d < n ≤ c`, if `c` is at most `2 ^ 31` or, more generally,
`rIndex + n < 2 ^ 32`, then `RingBuf_Read` returns `RINGBUF_OK` and afterwards
`RingBuf_GetDataLen` returns `c - (n - d)` when `n - d < c` and 0 when
`n - d = c`; in particular a read of 1 byte on an empty buffer leaves the
buffer reporting `RINGBUF_FULL` with data length `c - 1`. -/
theorem over_read_phantom (s : sRingBuf_t) (dst : Mem) (n : Nat)
    (hc : 2 ≤ s.bufsize) (h32 : s.bufsize < 4294967296)
    (hw : s.wIndex < s.bufsize) (hr : s.rIndex < s.bufsize)
    (hsum : s.bufsize ≤ 2147483648 ∨ s.rIndex + n < 4294967296)
    (hgt : RingBuf_GetDataLen (some s) < n) (hle : n ≤ s.bufsize) :
    (RingBuf_Read (some s) (some dst) n).1 = RINGBUF_OK ∧
    RingBuf_GetDataLen (RingBuf_Read (some s) (some dst) n).2.1 =
      (if n - RingBuf_GetDataLen (some s) < s.bufsize
        then s.bufsize - (n - RingBuf_GetDataLen (some s)) else 0) ∧
    (n = 1 →
      RingBuf_isFull (RingBuf_Read (some s) (some dst) n).2.1 = RINGBUF_FULL ∧
      RingBuf_GetDataLen (RingBuf_Read (some s) (some dst) n).2.1 = s.bufsize - 1) := by
  have hpos : 0 < s.bufsize := by omega
  have hd := dataLen_eq s h32 hw hr
  have ha : u32add s.rIndex n = s.rIndex + n := u32add_eq (by omega)
  have hm : (s.rIndex + n) % s.bufsize =
      if s.rIndex + n < s.bufsize then s.rIndex + n else s.rIndex + n - s.bufsize :=
    mod_wrap (by omega)
  have hr1 : (s.rIndex + n) % s.bufsize < s.bufsize := Nat.mod_lt _ hpos
  obtain ⟨out, hR, -⟩ := read_ok s dst n h32 hr (by omega) hle
  rw [ha] at hR
  rw [hR]
  have hd1 := dataLen_mk s.pBuf s.bufsize s.wIndex ((s.rIndex + n) % s.bufsize) h32 hw hr1
  have hlen : RingBuf_GetDataLen
      (some { s with rIndex := (s.rIndex + n) % s.bufsize }) =
      (if n - RingBuf_GetDataLen (some s) < s.bufsize
        then s.bufsize - (n - RingBuf_GetDataLen (some s)) else 0) := by
    rw [hd1, hm]
    generalize RingBuf_GetDataLen (some s) = d at hd hgt ⊢
    split_ifs at hd ⊢ <;> omega
  refine ⟨rfl, hlen, ?_⟩
  intro h1
  refine ⟨?_, ?_⟩
  · have hwr : s.wIndex = s.rIndex := by
      rw [hd] at hgt
      split_ifs at hgt <;> omega
    have hb : u32add s.wIndex 1 = s.wIndex + 1 := u32add_eq (by omega)
    simp only [RingBuf_isFull]
    rw [hb, hwr, h1, if_pos rfl]
  · show RingBuf_GetDataLen (some { s with rIndex := (s.rIndex + n) % s.bufsize }) = _
    rw [hlen]
    split_ifs <;> omega

theorem over_read_phantom_witness :
    (2 ≤ emptyAt2.bufsize ∧ emptyAt2.bufsize < 4294967296 ∧
      emptyAt2.wIndex < emptyAt2.bufsize ∧ emptyAt2.rIndex < emptyAt2.bufsize ∧
      (emptyAt2.bufsize ≤ 2147483648 ∨ emptyAt2.rIndex + 1 < 4294967296) ∧
      RingBuf_GetDataLen (some emptyAt2) < 1 ∧ 1 ≤ emptyAt2.bufsize) ∧
    ((RingBuf_Read (some emptyAt2) (some Mem.zero) 1).1 = RINGBUF_OK ∧
      RingBuf_GetDataLen (RingBuf_Read (some emptyAt2) (some Mem.zero) 1).2.1 =
        (if 1 - RingBuf_GetDataLen (some emptyAt2) < emptyAt2.bufsize
          then emptyAt2.bufsize - (1 - RingBuf_GetDataLen (some emptyAt2)) else 0)) ∧
    (RingBuf_isFull (RingBuf_Read (some emptyAt2) (some Mem.zero) 1).2.1 = RINGBUF_FULL ∧
      RingBuf_GetDataLen (RingBuf_Read (some emptyAt2) (some Mem.zero) 1).2.1 =
        emptyAt2.bufsize - 1) :=
  have h := over_read_phantom emptyAt2 Mem.zero 1 (by decide) (by decide) (by decide)
    (by decide) (by decide) (by decide) (by decide)
  ⟨by decide, ⟨h.1, h.2.1⟩, h.2.2 rfl⟩


/-- Shape of the ranges of a bulk copy of `n ≤ bufsize` bytes that starts at
a cursor `k` inside the storage. -/
theorem chunks_shape (c k n : Nat) (h32 : c < 4294967296) (hk : k < c) (hn : n ≤ c) :
    (if u32sub c k ≥ n then [(k, n)] else [(k, u32sub c k), (0, u32sub n (u32sub c k))]) =
      (k, min n (c - k)) :: (if c - k < n then [(0, n - (c - k))] else []) := by
  have hfc : u32sub c k = c - k := u32sub_eq (by omega) h32
  rw [hfc]
  by_cases hge : c - k ≥ n
  · rw [if_pos hge, if_neg (by omega), Nat.min_eq_left hge]
  · have hl : u32sub n (c - k) = n - (c - k) := u32sub_eq (by omega) (by omega)
    rw [if_neg hge, if_pos (by omega), hl, Nat.min_eq_right (by omega)]

/-- The indices inside the ranges of such a bulk copy. -/
theorem touched_shape (c k n j : Nat) :
    touched ((k, min n (c - k)) :: (if c - k < n then [(0, n - (c - k))] else [])) j = true ↔
      (k ≤ j ∧ j < k + min n (c - k)) ∨ (c - k < n ∧ j < n - (c - k)) := by
  by_cases h : c - k < n
  · simp [touched, h]
  · simp [touched, h]

/-- C20: bulk copies stay inside the storage. For every capacity of at least
1 and every state with both cursors inside the storage, when `RingBuf_Write`
passes the free-space check (`nW ≤ bufsize - 1 - DataLen`, on any state `sW`,
empty or not) and when `RingBuf_Read` is called with `nR ≤ DataLen` (on any
state `sR`, full or not): the first chunk is
`[cursor, cursor + min(n, bufsize - cursor))`, the second chunk, present when
`n > bufsize - cursor`, is `[0, n - (bufsize - cursor))`; every index in a
chunk is below `bufsize`; the second chunk ends at or before the start of the
first, so the two do not overlap; the write leaves every storage cell outside
its chunks unchanged, and the bytes the read delivers depend only on the cells
inside its chunks. -/
theorem bulk_copies_in_bounds (sW sR : sRingBuf_t) (src dst : Mem) (nW nR : Nat)
    (hW32 : sW.bufsize < 4294967296)
    (hWw : sW.wIndex < sW.bufsize) (hWr : sW.rIndex < sW.bufsize)
    (hW : nW ≤ sW.bufsize - 1 - RingBuf_GetDataLen (some sW))
    (hR32 : sR.bufsize < 4294967296)
    (hRw : sR.wIndex < sR.bufsize) (hRr : sR.rIndex < sR.bufsize)
    (hR : nR ≤ RingBuf_GetDataLen (some sR)) :
    (RingBuf_Write_chunks sW nW =
        (sW.wIndex, min nW (sW.bufsize - sW.wIndex)) ::
          (if sW.bufsize - sW.wIndex < nW then [(0, nW - (sW.bufsize - sW.wIndex))] else []) ∧
      RingBuf_Read_chunks sR nR =
        (sR.rIndex, min nR (sR.bufsize - sR.rIndex)) ::
          (if sR.bufsize - sR.rIndex < nR then [(0, nR - (sR.bufsize - sR.rIndex))] else [])) ∧
    ((∀ j, touched (RingBuf_Write_chunks sW nW) j = true → j < sW.bufsize) ∧
      (∀ j, touched (RingBuf_Read_chunks sR nR) j = true → j < sR.bufsize)) ∧
    ((sW.bufsize - sW.wIndex < nW → nW - (sW.bufsize - sW.wIndex) ≤ sW.wIndex) ∧
      (sR.bufsize - sR.rIndex < nR → nR - (sR.bufsize - sR.rIndex) ≤ sR.rIndex)) ∧
    (∃ s1, (RingBuf_Write (some sW) (some src) nW).2 = some s1 ∧
      (1 ≤ nW → (RingBuf_Write (some sW) (some src) nW).1 = RINGBUF_OK) ∧
      ∀ j, touched (RingBuf_Write_chunks sW nW) j = false → s1.pBuf j = sW.pBuf j) ∧
    (∀ alt : Mem, (∀ j, touched (RingBuf_Read_chunks sR nR) j = true → alt j = sR.pBuf j) →
      (RingBuf_Read (some { sR with pBuf := alt }) (some dst) nR).2.2 =
        (RingBuf_Read (some sR) (some dst) nR).2.2) := by
  have hWlt := dataLen_lt sW hW32 hWw hWr
  have hRlt := dataLen_lt sR hR32 hRw hRr
  have hWs : RingBuf_Write_chunks sW nW = _ :=
    chunks_shape sW.bufsize sW.wIndex nW hW32 hWw (by omega)
  have hRs : RingBuf_Read_chunks sR nR = _ :=
    chunks_shape sR.bufsize sR.rIndex nR hR32 hRr (by omega)
  have hWt := fun j => touched_shape sW.bufsize sW.wIndex nW j
  have hRt := fun j => touched_shape sR.bufsize sR.rIndex nR j
  rw [← hWs] at hWt
  rw [← hRs] at hRt
  refine ⟨⟨hWs, hRs⟩, ⟨?_, ?_⟩, ⟨by omega, by omega⟩, ?_, ?_⟩
  · intro j hj
    have := (hWt j).1 hj
    omega
  · intro j hj
    have := (hRt j).1 hj
    omega
  · rcases Nat.eq_zero_or_pos nW with h0 | h0
    · subst h0
      refine ⟨sW, by simp [RingBuf_Write], fun h => absurd h (by omega), fun _ _ => rfl⟩
    · obtain ⟨s1, hWr', -, -, -, hp⟩ := write_ok sW src nW hW32 hWw hWr h0 hW
      refine ⟨s1, by rw [hWr'], fun _ => by rw [hWr'], ?_⟩
      intro j hj
      have hnot : ¬ ((sW.wIndex ≤ j ∧ j < sW.wIndex + min nW (sW.bufsize - sW.wIndex)) ∨
          (sW.bufsize - sW.wIndex < nW ∧ j < nW - (sW.bufsize - sW.wIndex))) := by
        intro h
        have := (hWt j).2 h
        rw [hj] at this
        cases this
      rw [hp j, if_neg (by omega), if_neg (by omega)]
  · intro alt halt
    rcases Nat.eq_zero_or_pos nR with h0 | hR1
    · subst h0
      simp [RingBuf_Read]
    · obtain ⟨out1, h1, ho1⟩ := read_ok sR dst nR hR32 hRr hR1 (by omega)
      obtain ⟨out2, h2, ho2⟩ :=
        read_ok { sR with pBuf := alt } dst nR hR32 hRr hR1 (show nR ≤ sR.bufsize by omega)
      simp only at ho2
      rw [h1, h2]
      show some out2 = some out1
      congr 1
      funext i
      rw [ho1 i, ho2 i]
      by_cases hi : i < nR
      · rw [if_pos hi, if_pos hi]
        show alt _ = sR.pBuf _
        apply halt
        apply (hRt _).2
        split_ifs <;> omega
      · rw [if_neg hi, if_neg hi]

theorem bulk_copies_in_bounds_witness :
    (emptyAt2.bufsize < 4294967296 ∧ emptyAt2.wIndex < emptyAt2.bufsize ∧
      emptyAt2.rIndex < emptyAt2.bufsize ∧
      RingBuf_isEmpty (some emptyAt2) = RINGBUF_EMPTY ∧
      3 ≤ emptyAt2.bufsize - 1 - RingBuf_GetDataLen (some emptyAt2) ∧
      fullOfFour.bufsize < 4294967296 ∧ fullOfFour.wIndex < fullOfFour.bufsize ∧
      fullOfFour.rIndex < fullOfFour.bufsize ∧
      RingBuf_isFull (some fullOfFour) = RINGBUF_FULL ∧
      3 ≤ RingBuf_GetDataLen (some fullOfFour) ∧
      RingBuf_Write_chunks emptyAt2 3 = [(2, 2), (0, 1)] ∧
      RingBuf_Read_chunks fullOfFour 3 = [(0, 3)]) ∧
    ((RingBuf_Write_chunks emptyAt2 3 =
        (emptyAt2.wIndex, min 3 (emptyAt2.bufsize - emptyAt2.wIndex)) ::
          (if emptyAt2.bufsize - emptyAt2.wIndex < 3
            then [(0, 3 - (emptyAt2.bufsize - emptyAt2.wIndex))] else []) ∧
      RingBuf_Read_chunks fullOfFour 3 =
        (fullOfFour.rIndex, min 3 (fullOfFour.bufsize - fullOfFour.rIndex)) ::
          (if fullOfFour.bufsize - fullOfFour.rIndex < 3
            then [(0, 3 - (fullOfFour.bufsize - fullOfFour.rIndex))] else [])) ∧
    ((∀ j, touched (RingBuf_Write_chunks emptyAt2 3) j = true → j < emptyAt2.bufsize) ∧
      (∀ j, touched (RingBuf_Read_chunks fullOfFour 3) j = true → j < fullOfFour.bufsize)) ∧
    ((emptyAt2.bufsize - emptyAt2.wIndex < 3 →
        3 - (emptyAt2.bufsize - emptyAt2.wIndex) ≤ emptyAt2.wIndex) ∧
      (fullOfFour.bufsize - fullOfFour.rIndex < 3 →
        3 - (fullOfFour.bufsize - fullOfFour.rIndex) ≤ fullOfFour.rIndex)) ∧
    (∃ s1, (RingBuf_Write (some emptyAt2) (some Mem.zero) 3).2 = some s1 ∧
      (1 ≤ 3 → (RingBuf_Write (some emptyAt2) (some Mem.zero) 3).1 = RINGBUF_OK) ∧
      ∀ j, touched (RingBuf_Write_chunks emptyAt2 3) j = false →
        s1.pBuf j = emptyAt2.pBuf j) ∧
    (∀ alt : Mem,
      (∀ j, touched (RingBuf_Read_chunks fullOfFour 3) j = true → alt j = fullOfFour.pBuf j) →
      (RingBuf_Read (some { fullOfFour with pBuf := alt }) (some Mem.zero) 3).2.2 =
        (RingBuf_Read (some fullOfFour) (some Mem.zero) 3).2.2)) :=
  ⟨by decide,
    bulk_copies_in_bounds emptyAt2 fullOfFour Mem.zero Mem.zero 3 3 (by decide) (by decide)
      (by decide) (by decide) (by decide) (by decide) (by decide) (by decide)⟩

end RingBuf
